import Mathlib

/-! zippys: the path-vulnerability classifier of `main.go`

A shallow embedding of `PathVulnerabilityAnalyzer` and its six detector rules, of the
archive generator `generateMaliciousZip` and of the archive scanner `isVulnerableZip`.

Modelling conventions.

* A Go `string` is a Lean `String`: a sequence of code points stored in UTF-8.
  `[]rune(s)` is `s.data` and `len(s)` is `s.utf8ByteSize` (the number of BYTES).
  Byte sequences that are not well-formed UTF-8 have no counterpart in the model.
* A Go run-time panic (index out of range) is the result `none`; a function that
  returns the boolean `b` yields `some b`.
* A `for i := a; i < b; i++` loop whose body does not assign `i` is a function
  recursing on the number `b - a` of iterations that remain.
* `filepath.Separator` depends on the build target, so the classifier takes the
  target as a parameter.
-/

namespace Zippys

/-! ## Library functions used by the analyzer -/

/-- Build target of the Go toolchain, as far as `path/filepath` tells targets apart. -/
inductive GOOS where
  | unix
  | windows
  deriving DecidableEq, Repr

/-- The constant `filepath.Separator`. -/
def Separator : GOOS → Char
  | GOOS.unix => '/'
  | GOOS.windows => '\\'

/-- The call `strings.ReplaceAll(s, string(old), string(new))` for one-code-point
arguments. -/
def ReplaceAll (s : String) (old new : Char) : String :=
  ⟨s.data.map (fun c => if c = old then new else c)⟩

/-- The function `filepath.ToSlash`: the path itself when the separator is the
slash, otherwise every separator replaced by a slash. -/
def ToSlash (os : GOOS) (path : String) : String :=
  if Separator os = '/' then path else ReplaceAll path (Separator os) '/'

/-- Pieces of a code-point list between the occurrences of `sep`; `cur` holds the
piece being read, reversed. -/
def splitAux (sep : Char) : List Char → List Char → List String
  | [], cur => [⟨cur.reverse⟩]
  | c :: cs, cur =>
    if c = sep then ⟨cur.reverse⟩ :: splitAux sep cs []
    else splitAux sep cs (c :: cur)

/-- The call `strings.Split(s, string(sep))` for a one-code-point separator: it
never returns the empty list. -/
def Split (s : String) (sep : Char) : List String :=
  splitAux sep s.data []

/-- The function `unicode.ToUpper`, as far as a comparison with ASCII text can see
it: the ASCII lower-case letters, and the only two code points outside ASCII whose
upper case is an ASCII letter (U+0131 gives `I`, U+017F gives `S`). Every other
code point outside ASCII has an upper case outside ASCII and is left as it is. -/
def unicodeToUpper (c : Char) : Char :=
  if 'a' ≤ c ∧ c ≤ 'z' then Char.ofNat (c.toNat - 32)
  else if c = Char.ofNat 0x131 then 'I'
  else if c = Char.ofNat 0x17F then 'S'
  else c

/-- The function `strings.ToUpper`. -/
def ToUpper (s : String) : String :=
  ⟨s.data.map unicodeToUpper⟩

/-! ## The analyzer -/

/-- The struct `PathVulnerabilityAnalyzer`. -/
structure PathVulnerabilityAnalyzer where
  path : String
  tokens : List Char
  length : Nat
  deriving Repr

/-- The constructor `NewPathAnalyzer`: `length` is `len(normalizedPath)`, a byte
count, while `tokens` holds the code points. -/
def NewPathAnalyzer (os : GOOS) (path : String) : PathVulnerabilityAnalyzer :=
  let normalizedPath := ToSlash os path
  { path := normalizedPath
    tokens := normalizedPath.data
    length := normalizedPath.utf8ByteSize }

/-- The index expression `tokens[i]` compared by `p`: a panic when `i` is outside
the slice. -/
def tokenIs (tokens : List Char) (i : Nat) (p : Char → Bool) : Option Bool :=
  match tokens[i]? with
  | none => none
  | some t => some (p t)

/-- Short-circuit `a || b` of two expressions that may panic: `b` is evaluated only
when `a` is false. -/
def orElse (a b : Option Bool) : Option Bool :=
  match a with
  | none => none
  | some true => some true
  | some false => b

/-- Short-circuit `a && b` of two expressions that may panic: `b` is evaluated only
when `a` is true. -/
def andAlso (a b : Option Bool) : Option Bool :=
  match a with
  | none => none
  | some true => b
  | some false => some false

/-- The statement `if c { return t }` followed by `e`, where `c` may panic. -/
def ifReturn (c t e : Option Bool) : Option Bool :=
  match c with
  | none => none
  | some true => t
  | some false => e

/-- Loop of `detectParentDirectoryTraversal`: `n` iterations remain, the next one at
index `i`. -/
def parentLoop (tokens : List Char) : Nat → Nat → Option Bool
  | 0, _ => some false
  | n + 1, i =>
    ifReturn
      (andAlso (some (decide (i + 1 < tokens.length)))
        (andAlso (tokenIs tokens i (fun t => t == '.'))
          (tokenIs tokens (i + 1) (fun t => t == '.'))))
      (some true)
      (parentLoop tokens n (i + 1))

/-- The method `detectParentDirectoryTraversal`. The slice `tokens` is a list, whose
nil case is the empty list, which `len(tokens) < 2` covers. -/
def detectParentDirectoryTraversal (pva : PathVulnerabilityAnalyzer) : Option Bool :=
  if pva.length < 2 ∨ pva.tokens.length < 2 then some false
  else
    let maxIndex := if pva.tokens.length < pva.length then pva.tokens.length else pva.length
    parentLoop pva.tokens (maxIndex - 1) 0

/-- The method `detectURLEncoding`. -/
def detectURLEncoding (pva : PathVulnerabilityAnalyzer) : Option Bool :=
  some (pva.tokens.any (fun token => token == '%'))

/-- The method `detectAbsolutePaths`. -/
def detectAbsolutePaths (pva : PathVulnerabilityAnalyzer) : Option Bool :=
  if pva.length = 0 then some false
  else
    ifReturn (tokenIs pva.tokens 0 (fun t => t == '/')) (some (decide (pva.length > 1)))
      (ifReturn (tokenIs pva.tokens 0 (fun t => t == '\\')) (some (decide (pva.length > 1)))
        (some false))

/-- Inner loop of `detectTildeExpansion`: `n` iterations remain, the next one at
index `i`; the loop returns false at a separator, and false is returned after it. -/
def tildeLoop (tokens : List Char) : Nat → Nat → Option Bool
  | 0, _ => some false
  | n + 1, i =>
    ifReturn
      (orElse (tokenIs tokens i (fun t => t == '/')) (tokenIs tokens i (fun t => t == '\\')))
      (some false)
      (tildeLoop tokens n (i + 1))

/-- The method `detectTildeExpansion`. -/
def detectTildeExpansion (pva : PathVulnerabilityAnalyzer) : Option Bool :=
  ifReturn
    (orElse (some (decide (pva.length = 0))) (tokenIs pva.tokens 0 (fun t => t != '~')))
    (some false)
  (ifReturn (some (decide (pva.length = 1))) (some false)
  (ifReturn
    (andAlso (some (decide (pva.length > 1)))
      (orElse (tokenIs pva.tokens 1 (fun t => t == '/'))
        (tokenIs pva.tokens 1 (fun t => t == '\\'))))
    (some true)
  (ifReturn
    (andAlso (some (decide (pva.length = 2)))
      (andAlso (tokenIs pva.tokens 1 (fun t => decide ('0' ≤ t)))
        (tokenIs pva.tokens 1 (fun t => decide (t ≤ '9')))))
    (some false)
  (ifReturn
    (andAlso (some (decide (pva.length > 1)))
      (orElse
        (andAlso (tokenIs pva.tokens 1 (fun t => decide ('A' ≤ t)))
          (tokenIs pva.tokens 1 (fun t => decide (t ≤ 'Z'))))
        (andAlso (tokenIs pva.tokens 1 (fun t => decide ('a' ≤ t)))
          (tokenIs pva.tokens 1 (fun t => decide (t ≤ 'z'))))))
    (tildeLoop pva.tokens (pva.length - 2) 2)
  (some true)))))

/-- Loop of `findColonPositions`: the positions of the colons of `tokens`, the head
being at index `i`. -/
def findColonPositionsFrom : List Char → Nat → List Nat
  | [], _ => []
  | token :: rest, i =>
    if token = ':' then i :: findColonPositionsFrom rest (i + 1)
    else findColonPositionsFrom rest (i + 1)

/-- The method `findColonPositions`. -/
def findColonPositions (pva : PathVulnerabilityAnalyzer) : List Nat :=
  findColonPositionsFrom pva.tokens 0

/-- Loop of `hasDangerousPatternsAfter`: `n` iterations remain, the next one at
index `i`. -/
def dangerousLoop (pva : PathVulnerabilityAnalyzer) : Nat → Nat → Option Bool
  | 0, _ => some false
  | n + 1, i =>
    match pva.tokens[i]? with
    | none => none
    | some token =>
      if token = '/' ∨ token = '\\' ∨ token = '%' ∨ token = '\x00' then some true
      else
        ifReturn
          (andAlso (some (decide (i < pva.length - 1)))
            (andAlso (some (token == '.')) (tokenIs pva.tokens (i + 1) (fun t => t == '.'))))
          (some true)
          (dangerousLoop pva n (i + 1))

/-- The method `hasDangerousPatternsAfter`. -/
def hasDangerousPatternsAfter (pva : PathVulnerabilityAnalyzer) (pos : Nat) : Option Bool :=
  dangerousLoop pva (pva.length - (pos + 1)) (pos + 1)

/-- The method `analyzeColonAtStart`. -/
def analyzeColonAtStart (pva : PathVulnerabilityAnalyzer) : Option Bool :=
  if pva.length ≤ 1 then some false else hasDangerousPatternsAfter pva 0

/-- The method `analyzeSingleCharColon`. -/
def analyzeSingleCharColon (pva : PathVulnerabilityAnalyzer) : Option Bool :=
  if pva.length < 2 then some false
  else if pva.length = 2 then some false
  else
    ifReturn
      (andAlso (some (decide (pva.length > 2)))
        (orElse (tokenIs pva.tokens 2 (fun t => t == '\\'))
          (tokenIs pva.tokens 2 (fun t => t == '/'))))
      (some true)
      (hasDangerousPatternsAfter pva 1)

/-- The method `analyzeMultiCharColon`. -/
def analyzeMultiCharColon (pva : PathVulnerabilityAnalyzer) (colonPos : Nat) : Option Bool :=
  hasDangerousPatternsAfter pva colonPos

/-- The method `analyzeColonAtPosition`. -/
def analyzeColonAtPosition (pva : PathVulnerabilityAnalyzer) (colonPos : Nat) : Option Bool :=
  if colonPos = 0 then analyzeColonAtStart pva
  else if colonPos = 1 then analyzeSingleCharColon pva
  else if colonPos > 1 then analyzeMultiCharColon pva colonPos
  else some false

/-- Loop of `detectColonPatterns` over the colon positions. -/
def colonLoop (pva : PathVulnerabilityAnalyzer) : List Nat → Option Bool
  | [] => some false
  | colonPos :: rest =>
    ifReturn (analyzeColonAtPosition pva colonPos) (some true) (colonLoop pva rest)

/-- The method `detectColonPatterns`. -/
def detectColonPatterns (pva : PathVulnerabilityAnalyzer) : Option Bool :=
  let colonPositions := findColonPositions pva
  if colonPositions.length = 0 then some false else colonLoop pva colonPositions

/-- The keys of the map `reservedNames`. -/
def reservedNames : List String :=
  ["CON", "PRN", "AUX", "NUL",
   "COM1", "COM2", "COM3", "COM4",
   "COM5", "COM6", "COM7", "COM8", "COM9",
   "LPT1", "LPT2", "LPT3", "LPT4",
   "LPT5", "LPT6", "LPT7", "LPT8", "LPT9"]

/-- The method `detectWindowsDeviceNames`. -/
def detectWindowsDeviceNames (pva : PathVulnerabilityAnalyzer) : Option Bool :=
  let parts := Split pva.path '/'
  if parts.length = 0 then some false
  else
    match parts[0]? with
    | none => none
    | some part0 =>
      let name := ToUpper part0
      some (reservedNames.contains name)

/-- The method `IsVulnerable`. -/
def IsVulnerable (pva : PathVulnerabilityAnalyzer) : Option Bool :=
  if pva.length = 0 then some false
  else
    orElse (detectParentDirectoryTraversal pva)
      (orElse (detectURLEncoding pva)
        (orElse (detectAbsolutePaths pva)
          (orElse (detectTildeExpansion pva)
            (orElse (detectColonPatterns pva)
              (detectWindowsDeviceNames pva)))))

/-- The function `isVulnerablePath`. -/
def isVulnerablePath (os : GOOS) (path : String) : Option Bool :=
  IsVulnerable (NewPathAnalyzer os path)

/-! ## The archive generator and the archive scanner

An archive is the list of its entries, in the order in which they were written. A Go
`error` is an `Option String`, `none` being `nil`. What the operating system and
`archive/zip` answer is not decided by this program, so the generator takes their
answers as a parameter and the scanner takes the result of `zip.OpenReader`. -/

/-- One entry of an archive: the stored name and the bytes written to it. -/
structure ZipEntry where
  name : String
  content : String
  deriving DecidableEq, Repr

/-- The answers of the calls the generator makes: `os.Create(outputFile)`,
`zipWriter.Create(name)` and `writer.Write(content)` on the entry `name`. -/
structure ZipIO where
  osCreate : String → Option String
  zipCreate : String → Option String
  zipWrite : String → String → Option String

/-- Copies of `s`, `n` times. -/
def repeatString (s : String) : Nat → String
  | 0 => ""
  | n + 1 => s ++ repeatString s n

/-- The constant `math.MaxInt` of a 64-bit build target. -/
def maxInt : Int := 9223372036854775807

/-- The function `strings.Repeat`: it panics on a negative count, and it panics when the
length of the result, `len(s) * count`, does not fit an `int`. -/
def Repeat (s : String) (count : Int) : Option String :=
  if count < 0 then none
  else if (s.utf8ByteSize : Int) * count > maxInt then none
  else some (repeatString s count.toNat)

/-- The payloads written when the caller passes none. -/
def defaultPayloads : List String :=
  ["../../../etc/passwd",
   "..\\..\\..\\windows\\system32\\config\\sam",
   "../../../../root/.ssh/id_rsa"]

/-- Loop of `generateMaliciousZip` over the payloads; `written` holds the entries
written so far. The result is `none` on a panic, the returned error, or the entries of
the archive when the loop ends. -/
def writePayloads (io : ZipIO) (depth : Int) :
    List String → List ZipEntry → Option (Except String (List ZipEntry))
  | [], written => some (Except.ok written)
  | payload :: rest, written =>
    match Repeat "../" depth with
    | none => none
    | some dots =>
      let traversalPath := dots ++ payload
      match io.zipCreate traversalPath with
      | some err => some (Except.error err)
      | none =>
        let content := "Malicious content for " ++ payload
        match io.zipWrite traversalPath content with
        | some err => some (Except.error err)
        | none => writePayloads io depth rest (written ++ [⟨traversalPath, content⟩])

/-- The function `generateMaliciousZip`: `none` on a panic, the returned error, or,
when it returns `nil`, the entries of the archive written to `outputFile`. -/
def generateMaliciousZip (io : ZipIO) (outputFile : String) (payloads : List String)
    (depth : Int) : Option (Except String (List ZipEntry)) :=
  match io.osCreate outputFile with
  | some err => some (Except.error err)
  | none =>
    let payloads := if payloads.length = 0 then defaultPayloads else payloads
    writePayloads io depth payloads []

/-- The three results of `isVulnerableZip`. -/
structure ScanResult where
  vulnerable : Bool
  paths : List String
  err : Option String
  deriving DecidableEq, Repr

/-- Loop of `isVulnerableZip` over the entries; `vulnerablePaths` holds the names
appended so far. A panic of the classifier is a panic of the loop. -/
def scanLoop (os : GOOS) : List ZipEntry → List String → Option (List String)
  | [], vulnerablePaths => some vulnerablePaths
  | f :: rest, vulnerablePaths =>
    match isVulnerablePath os f.name with
    | none => none
    | some true => scanLoop os rest (vulnerablePaths ++ [f.name])
    | some false => scanLoop os rest vulnerablePaths

/-- The function `isVulnerableZip`, given what `zip.OpenReader(zipPath)` returned: the
error or the entries of the archive. -/
def isVulnerableZip (os : GOOS) (opened : Except String (List ZipEntry)) :
    Option ScanResult :=
  match opened with
  | Except.error err => some ⟨false, [], some err⟩
  | Except.ok files =>
    match scanLoop os files [] with
    | none => none
    | some vulnerablePaths =>
      some ⟨decide (vulnerablePaths.length > 0), vulnerablePaths, none⟩

/-- An environment in which every call of the generator succeeds. -/
def allSucceed : ZipIO :=
  ⟨fun _ => none, fun _ => none, fun _ _ => none⟩

/-! ## Auxiliary definitions for the statements -/

/-- What `filepath.ToSlash` does to one code point. -/
def slashOf (os : GOOS) (c : Char) : Char :=
  if c = Separator os then '/' else c

/-- Two adjacent dots occur in the list. -/
def hasDotDot : List Char → Bool
  | a :: b :: rest => (a == '.' && b == '.') || hasDotDot (b :: rest)
  | _ => false

/-- What the specification calls a dangerous suffix: one of the code points `/`, `\`,
`%`, NUL occurs in the list, or two adjacent dots do. -/
def dangerousSuffix (l : List Char) : Bool :=
  l.any (fun c => c == '/' || c == '\\' || c == '%' || c == '\x00') || hasDotDot l

/-- The code points after the first colon of the list, if it has a colon. -/
def afterFirstColon : List Char → Option (List Char)
  | [] => none
  | c :: rest => if c = ':' then some rest else afterFirstColon rest

/-- The colon rule as one scan, in the words of the specification: the list has a
colon, and a dangerous suffix follows its first colon. -/
def colonScanSpec (l : List Char) : Bool :=
  match afterFirstColon l with
  | none => false
  | some rest => dangerousSuffix rest

/-! ## Strings, code points and bytes -/

theorem length_le_utf8Len (l : List Char) : l.length ≤ String.utf8Len l := by
  induction l with
  | nil => simp
  | cons c cs ih =>
    have := c.utf8Size_pos
    simp only [List.length_cons, String.utf8Len_cons]
    omega

theorem utf8Size_of_ascii (c : Char) (h : c.toNat < 128) : c.utf8Size = 1 := by
  have h1 : c.val ≤ 127 := by
    show c.val.toNat ≤ 127
    have : c.toNat = c.val.toNat := rfl
    omega
  show (if c.val ≤ UInt32.ofNatCore 127 (by decide) then 1 else _) = 1
  exact if_pos h1

theorem utf8Len_of_ascii (l : List Char) (h : ∀ c ∈ l, c.toNat < 128) :
    String.utf8Len l = l.length := by
  induction l with
  | nil => simp
  | cons c cs ih =>
    have h1 := utf8Size_of_ascii c (h c (by simp))
    have h2 := ih (fun x hx => h x (by simp [hx]))
    simp only [List.length_cons, String.utf8Len_cons]
    omega

theorem utf8Size_slashOf (os : GOOS) (c : Char) : (slashOf os c).utf8Size = c.utf8Size := by
  unfold slashOf
  split
  · next h => subst h; cases os <;> rfl
  · rfl

theorem utf8Len_map_slashOf (os : GOOS) (l : List Char) :
    String.utf8Len (l.map (slashOf os)) = String.utf8Len l := by
  induction l with
  | nil => rfl
  | cons c cs ih => simp [String.utf8Len_cons, ih, utf8Size_slashOf]

theorem ToSlash_data (os : GOOS) (s : String) :
    (ToSlash os s).data = s.data.map (slashOf os) := by
  cases os
  · have h : ∀ l : List Char, l.map (slashOf GOOS.unix) = l := by
      intro l
      induction l with
      | nil => rfl
      | cons c cs ih =>
        simp only [List.map_cons, ih, slashOf, Separator]
        split
        · next h => rw [h]
        · rfl
    simp [ToSlash, Separator, h]
  · have hne : ¬ ('\\' = '/') := by decide
    simp [ToSlash, Separator, ReplaceAll, slashOf, hne]

theorem ToSlash_eq (os : GOOS) (s : String) : ToSlash os s = ⟨s.data.map (slashOf os)⟩ := by
  have h := ToSlash_data os s
  cases hs : ToSlash os s with
  | mk d => rw [hs] at h; simp at h; rw [h]

theorem NewPathAnalyzer_eq (os : GOOS) (s : String) :
    NewPathAnalyzer os s =
      { path := ⟨s.data.map (slashOf os)⟩
        tokens := s.data.map (slashOf os)
        length := String.utf8Len s.data } := by
  simp only [NewPathAnalyzer, ToSlash_eq, String.utf8ByteSize_mk, utf8Len_map_slashOf]

/-! ## The short-circuit operators -/

@[simp] theorem orElse_none (b : Option Bool) : orElse none b = none := rfl
@[simp] theorem orElse_true (b : Option Bool) : orElse (some true) b = some true := rfl
@[simp] theorem orElse_false (b : Option Bool) : orElse (some false) b = b := rfl
@[simp] theorem andAlso_none (b : Option Bool) : andAlso none b = none := rfl
@[simp] theorem andAlso_true (b : Option Bool) : andAlso (some true) b = b := rfl
@[simp] theorem andAlso_false (b : Option Bool) : andAlso (some false) b = some false := rfl
@[simp] theorem ifReturn_none (t e : Option Bool) : ifReturn none t e = none := rfl
@[simp] theorem ifReturn_true (t e : Option Bool) : ifReturn (some true) t e = t := rfl
@[simp] theorem ifReturn_false (t e : Option Bool) : ifReturn (some false) t e = e := rfl

theorem tokenIs_of_get (tokens : List Char) (i : Nat) (p : Char → Bool) (t : Char)
    (h : tokens[i]? = some t) : tokenIs tokens i p = some (p t) := by
  simp [tokenIs, h]

@[simp] theorem tokenIs_cons_zero (t : Char) (ts : List Char) (p : Char → Bool) :
    tokenIs (t :: ts) 0 p = some (p t) := by
  simp [tokenIs]

@[simp] theorem tokenIs_cons_succ (t : Char) (ts : List Char) (i : Nat) (p : Char → Bool) :
    tokenIs (t :: ts) (i + 1) p = tokenIs ts i p := by
  simp [tokenIs]

theorem orElse_some_bool (a b : Bool) : orElse (some a) (some b) = some (a || b) := by
  cases a <;> rfl

theorem andAlso_some_bool (a b : Bool) : andAlso (some a) (some b) = some (a && b) := by
  cases a <;> rfl

/-! ## The parent-traversal rule -/

theorem parentLoop_eq (tokens : List Char) :
    ∀ n i, i + n + 1 = tokens.length →
      parentLoop tokens n i = some (hasDotDot (tokens.drop i)) := by
  intro n
  induction n with
  | zero =>
    intro i h
    have hi : i < tokens.length := by omega
    have hd : tokens.drop (i + 1) = [] := List.drop_eq_nil_of_le (by omega)
    rw [List.drop_eq_getElem_cons hi, hd]
    rfl
  | succ n ih =>
    intro i h
    have hi : i < tokens.length := by omega
    have hi1 : i + 1 < tokens.length := by omega
    have e0 : tokens[i]? = some tokens[i] := List.getElem?_eq_getElem hi
    have e1 : tokens[i + 1]? = some tokens[i + 1] := List.getElem?_eq_getElem hi1
    rw [List.drop_eq_getElem_cons hi, List.drop_eq_getElem_cons hi1]
    have ih1 := ih (i + 1) (by omega)
    rw [List.drop_eq_getElem_cons hi1] at ih1
    simp only [parentLoop, hi1, decide_True, andAlso_true, tokenIs_of_get _ _ _ _ e0,
      tokenIs_of_get _ _ _ _ e1, andAlso_some_bool, ih1, hasDotDot]
    cases (tokens[i] == '.' && tokens[i + 1] == '.') <;> rfl

theorem detectParent_eq (pva : PathVulnerabilityAnalyzer)
    (h : pva.tokens.length ≤ pva.length) :
    detectParentDirectoryTraversal pva = some (hasDotDot pva.tokens) := by
  unfold detectParentDirectoryTraversal
  split
  · next hlt =>
    have h2 : pva.tokens.length < 2 := by omega
    match hts : pva.tokens, h2 with
    | [], _ => rfl
    | [_], _ => rfl
  · next hge =>
    have h2 : 2 ≤ pva.tokens.length := by omega
    have hm : (if pva.tokens.length < pva.length then pva.tokens.length else pva.length)
        = pva.tokens.length := by
      split <;> omega
    simp only [hm]
    rw [parentLoop_eq pva.tokens (pva.tokens.length - 1) 0 (by omega)]
    rfl

theorem hasDotDot_append_dots (pre post : List Char) :
    hasDotDot (pre ++ '.' :: '.' :: post) = true := by
  induction pre with
  | nil => rfl
  | cons a rest ih =>
    cases rest with
    | nil => simp [hasDotDot]
    | cons b rest2 =>
      simp only [List.cons_append] at ih ⊢
      simp [hasDotDot, ih]

theorem hasDotDot_map_slashOf (os : GOOS) (l : List Char) :
    hasDotDot (l.map (slashOf os)) = hasDotDot l := by
  have hdot : ∀ c : Char, (slashOf os c == '.') = (c == '.') := by
    intro c
    unfold slashOf
    split
    · next h => subst h; cases os <;> rfl
    · rfl
  induction l with
  | nil => rfl
  | cons a rest ih =>
    cases rest with
    | nil => rfl
    | cons b rest2 =>
      simp only [List.map_cons] at ih ⊢
      simp only [hasDotDot, ih, hdot]

/-! ## The classifier on the analyzer of a string -/

theorem tokens_le_length (os : GOOS) (s : String) :
    (NewPathAnalyzer os s).tokens.length ≤ (NewPathAnalyzer os s).length := by
  rw [NewPathAnalyzer_eq]
  simpa using length_le_utf8Len s.data

theorem IsVulnerable_eq (pva : PathVulnerabilityAnalyzer)
    (h : pva.tokens.length ≤ pva.length) (h0 : pva.tokens ≠ []) :
    IsVulnerable pva =
      if hasDotDot pva.tokens || pva.tokens.any (fun token => token == '%') then some true
      else orElse (detectAbsolutePaths pva)
        (orElse (detectTildeExpansion pva)
          (orElse (detectColonPatterns pva) (detectWindowsDeviceNames pva))) := by
  have hlen : pva.length ≠ 0 := by
    have : pva.tokens.length ≠ 0 := by simpa using h0
    omega
  unfold IsVulnerable
  rw [if_neg hlen, detectParent_eq pva h, detectURLEncoding]
  cases hasDotDot pva.tokens <;> cases pva.tokens.any (fun token => token == '%') <;> simp

theorem slashOf_eq_self (os : GOOS) (c : Char) (h : c ≠ '\\') : slashOf os c = c := by
  unfold slashOf
  split
  · next hc =>
    subst hc
    cases os
    · rfl
    · exact absurd rfl h
  · rfl

theorem slashOf_backslash (os : GOOS) : slashOf os '\\' = '/' ∨ slashOf os '\\' = '\\' := by
  cases os
  · right; rfl
  · left; rfl

theorem any_percent_map_slashOf (os : GOOS) (l : List Char) :
    (l.map (slashOf os)).any (fun token => token == '%') = l.any (fun token => token == '%') := by
  have hp : ∀ c : Char, (slashOf os c == '%') = (c == '%') := by
    intro c
    unfold slashOf
    split
    · next h => subst h; cases os <;> rfl
    · rfl
  induction l with
  | nil => rfl
  | cons a rest ih => simp only [List.map_cons, List.any_cons, ih, hp]

theorem detectAbsolutePaths_cons (pva : PathVulnerabilityAnalyzer) (t0 : Char)
    (rest : List Char) (ht : pva.tokens = t0 :: rest) (h0 : pva.length ≠ 0) :
    detectAbsolutePaths pva =
      some ((t0 == '/' || t0 == '\\') && decide (pva.length > 1)) := by
  unfold detectAbsolutePaths
  rw [if_neg h0, ht]
  simp only [tokenIs_cons_zero]
  cases h1 : (t0 == '/') <;> cases h2 : (t0 == '\\') <;> simp

theorem detectTilde_not_tilde (pva : PathVulnerabilityAnalyzer) (t0 : Char)
    (rest : List Char) (ht : pva.tokens = t0 :: rest) (h : t0 ≠ '~') :
    detectTildeExpansion pva = some false := by
  unfold detectTildeExpansion
  rw [ht]
  have h1 : (t0 != '~') = true := by simpa using h
  simp only [tokenIs_cons_zero, h1]
  cases decide (pva.length = 0) <;> rfl

theorem detectTilde_separator (pva : PathVulnerabilityAnalyzer) (t1 : Char)
    (rest : List Char) (ht : pva.tokens = '~' :: t1 :: rest) (hl : 2 ≤ pva.length)
    (h : t1 = '/' ∨ t1 = '\\') :
    detectTildeExpansion pva = some true := by
  unfold detectTildeExpansion
  rw [ht]
  have h0 : decide (pva.length = 0) = false := by simp; omega
  have h1 : decide (pva.length = 1) = false := by simp; omega
  have h2 : decide (pva.length > 1) = true := by simp; omega
  simp only [tokenIs_cons_zero, tokenIs_cons_succ, h0, h1, h2, orElse_false, andAlso_true,
    ifReturn_false]
  rcases h with h | h <;> subst h <;> rfl

/-! ## The classifier on a string -/

theorem isVulnerablePath_eq (os : GOOS) (s : String) (h0 : s.data ≠ []) :
    isVulnerablePath os s =
      if hasDotDot s.data || s.data.any (fun token => token == '%') then some true
      else orElse (detectAbsolutePaths (NewPathAnalyzer os s))
        (orElse (detectTildeExpansion (NewPathAnalyzer os s))
          (orElse (detectColonPatterns (NewPathAnalyzer os s))
            (detectWindowsDeviceNames (NewPathAnalyzer os s)))) := by
  have ht : (NewPathAnalyzer os s).tokens = s.data.map (slashOf os) := by
    rw [NewPathAnalyzer_eq]
  have hne : (NewPathAnalyzer os s).tokens ≠ [] := by
    rw [ht]
    simpa using h0
  unfold isVulnerablePath
  rw [IsVulnerable_eq _ (tokens_le_length os s) hne, ht, hasDotDot_map_slashOf,
    any_percent_map_slashOf]

theorem NewPathAnalyzer_tokens (os : GOOS) (s : String) :
    (NewPathAnalyzer os s).tokens = s.data.map (slashOf os) := by
  rw [NewPathAnalyzer_eq]

theorem NewPathAnalyzer_length (os : GOOS) (s : String) :
    (NewPathAnalyzer os s).length = String.utf8Len s.data := by
  rw [NewPathAnalyzer_eq]

theorem slashOf_separator (os : GOOS) (c : Char) (hc : c = '/' ∨ c = '\\') :
    slashOf os c = '/' ∨ slashOf os c = '\\' := by
  rcases hc with hc | hc <;> subst hc <;> cases os <;> simp [slashOf, Separator]

theorem leading_separator_long (os : GOOS) (s : String) (c r : Char) (rs : List Char)
    (hs : s.data = c :: r :: rs) (hc : c = '/' ∨ c = '\\') :
    isVulnerablePath os s = some true := by
  rw [isVulnerablePath_eq os s (by simp [hs])]
  split
  · rfl
  · have hlen : 2 ≤ (NewPathAnalyzer os s).length := by
      have := length_le_utf8Len (c :: r :: rs)
      rw [NewPathAnalyzer_length, hs]
      simp only [List.length_cons] at this
      omega
    have ht : (NewPathAnalyzer os s).tokens = slashOf os c :: (r :: rs).map (slashOf os) := by
      rw [NewPathAnalyzer_tokens, hs, List.map_cons]
    rw [detectAbsolutePaths_cons _ _ _ ht (by omega)]
    have h1 : decide ((NewPathAnalyzer os s).length > 1) = true := by simp; omega
    rcases slashOf_separator os c hc with h | h <;> rw [h, h1] <;> rfl

/-! ## Code points -/

theorem char_le_iff (a b : Char) : a ≤ b ↔ a.toNat ≤ b.toNat := Iff.rfl

theorem isAlpha_iff (c : Char) :
    c.isAlpha = true ↔ ('A' ≤ c ∧ c ≤ 'Z') ∨ ('a' ≤ c ∧ c ≤ 'z') := by
  simp [Char.isAlpha, Char.isUpper, Char.isLower, Char.le_def]

theorem isDigit_iff (c : Char) : c.isDigit = true ↔ ('0' ≤ c ∧ c ≤ '9') := by
  simp [Char.isDigit, Char.le_def]

theorem isAlphanum_iff (c : Char) : c.isAlphanum = true ↔ c.isAlpha = true ∨ c.isDigit = true := by
  simp [Char.isAlphanum]

theorem isAlpha_ascii (c : Char) (h : c.isAlpha = true) : c.toNat < 128 := by
  rw [isAlpha_iff] at h
  simp only [char_le_iff] at h
  have e1 : 'Z'.toNat = 90 := rfl
  have e2 : 'z'.toNat = 122 := rfl
  omega

theorem isDigit_ascii (c : Char) (h : c.isDigit = true) : c.toNat < 128 := by
  rw [isDigit_iff] at h
  simp only [char_le_iff] at h
  have e1 : '9'.toNat = 57 := rfl
  omega

theorem isAlphanum_ascii (c : Char) (h : c.isAlphanum = true) : c.toNat < 128 := by
  rcases (isAlphanum_iff c).1 h with h | h
  · exact isAlpha_ascii c h
  · exact isDigit_ascii c h

/-! ## The tilde rule -/

theorem tildeLoop_in_bounds (tokens : List Char) :
    ∀ n i, i + n ≤ tokens.length → tildeLoop tokens n i = some false := by
  intro n
  induction n with
  | zero => intro i _; rfl
  | succ n ih =>
    intro i h
    have hi : i < tokens.length := by omega
    have e0 : tokens[i]? = some tokens[i] := List.getElem?_eq_getElem hi
    simp only [tildeLoop, tokenIs_of_get _ _ _ _ e0, orElse_some_bool, ih (i + 1) (by omega)]
    cases (tokens[i] == '/' || tokens[i] == '\\') <;> rfl

theorem tildeLoop_separator (tokens : List Char) :
    ∀ n i j, i ≤ j → j < i + n → (tokens[j]? = some '/' ∨ tokens[j]? = some '\\') →
      tildeLoop tokens n i = some false := by
  intro n
  induction n with
  | zero => intro i j h1 h2; omega
  | succ n ih =>
    intro i j h1 h2 hj
    have hjlen : j < tokens.length := by
      rcases hj with hj | hj <;> exact (List.getElem?_eq_some.1 hj).1
    have hi : i < tokens.length := by omega
    have e0 : tokens[i]? = some tokens[i] := List.getElem?_eq_getElem hi
    simp only [tildeLoop, tokenIs_of_get _ _ _ _ e0, orElse_some_bool]
    cases hc : (tokens[i] == '/' || tokens[i] == '\\')
    · have hne : i ≠ j := by
        intro hij
        subst hij
        rw [e0] at hj
        rcases hj with hj | hj <;> simp only [Option.some.injEq] at hj <;> rw [hj] at hc <;>
          exact absurd hc (by decide)
      exact ih (i + 1) j (by omega) (by omega) hj
    · rfl

theorem detectTilde_single (pva : PathVulnerabilityAnalyzer)
    (ht : pva.tokens = ['~']) (hl : pva.length = 1) :
    detectTildeExpansion pva = some false := by
  unfold detectTildeExpansion
  rw [ht, hl]
  rfl

theorem detectTilde_cons (pva : PathVulnerabilityAnalyzer) (t1 : Char) (rest : List Char)
    (ht : pva.tokens = '~' :: t1 :: rest) (hl : 2 ≤ pva.length) :
    detectTildeExpansion pva =
      if t1 = '/' ∨ t1 = '\\' then some true
      else if pva.length = 2 ∧ t1.isDigit = true then some false
      else if t1.isAlpha = true then tildeLoop pva.tokens (pva.length - 2) 2
      else some true := by
  unfold detectTildeExpansion
  have h0 : decide (pva.length = 0) = false := by simp; omega
  have h1 : decide (pva.length = 1) = false := by simp; omega
  have h2 : decide (pva.length > 1) = true := by simp; omega
  simp only [ht, tokenIs_cons_zero, tokenIs_cons_succ, h0, h1, h2, orElse_false, andAlso_true,
    ifReturn_false, orElse_some_bool, andAlso_some_bool]
  rw [← ht]
  by_cases hs : t1 = '/' ∨ t1 = '\\'
  · have hb : (t1 == '/' || t1 == '\\') = true := by simpa using hs
    rw [if_pos hs, hb]
    rfl
  · have hb : (t1 == '/' || t1 == '\\') = false := by simpa using hs
    rw [if_neg hs, hb]
    by_cases hd : pva.length = 2 ∧ t1.isDigit = true
    · have hb2 : (decide (pva.length = 2) && (decide ('0' ≤ t1) && decide (t1 ≤ '9'))) = true := by
        have := (isDigit_iff t1).1 hd.2
        simp [hd.1, this.1, this.2]
      rw [if_pos hd, hb2]
      rfl
    · have hb2 : (decide (pva.length = 2) && (decide ('0' ≤ t1) && decide (t1 ≤ '9'))) = false := by
        rw [isDigit_iff] at hd
        cases h : (decide (pva.length = 2) && (decide ('0' ≤ t1) && decide (t1 ≤ '9')))
        · rfl
        · exfalso
          apply hd
          simpa using h
      rw [if_neg hd, hb2]
      by_cases ha : t1.isAlpha = true
      · have hb3 : (decide ('A' ≤ t1) && decide (t1 ≤ 'Z') || decide ('a' ≤ t1) && decide (t1 ≤ 'z'))
            = true := by
          have := (isAlpha_iff t1).1 ha
          simpa using this
        rw [if_pos ha, hb3]
        rfl
      · have hb3 : (decide ('A' ≤ t1) && decide (t1 ≤ 'Z') || decide ('a' ≤ t1) && decide (t1 ≤ 'z'))
            = false := by
          rw [isAlpha_iff] at ha
          cases h : (decide ('A' ≤ t1) && decide (t1 ≤ 'Z') || decide ('a' ≤ t1) && decide (t1 ≤ 'z'))
          · rfl
          · exfalso
            apply ha
            simpa using h
        rw [if_neg ha, hb3]
        rfl

/-! ## The colon rule -/

theorem findColonPositionsFrom_no_colon (l : List Char) (h : ∀ x ∈ l, x ≠ ':') :
    ∀ i, findColonPositionsFrom l i = [] := by
  induction l with
  | nil => intro i; rfl
  | cons a rest ih =>
    intro i
    have ha : a ≠ ':' := h a (by simp)
    simp only [findColonPositionsFrom, if_neg ha]
    exact ih (fun x hx => h x (by simp [hx])) (i + 1)

theorem findColonPositionsFrom_head (l : List Char) :
    ∀ i p, l[p]? = some ':' →
      ∃ h rest, findColonPositionsFrom l i = h :: rest ∧ i ≤ h ∧ h ≤ i + p := by
  induction l with
  | nil => intro i p hp; simp at hp
  | cons a rest ih =>
    intro i p hp
    by_cases ha : a = ':'
    · exact ⟨i, findColonPositionsFrom rest (i + 1), by simp [findColonPositionsFrom, ha],
        Nat.le_refl i, by omega⟩
    · cases p with
      | zero =>
        simp only [List.getElem?_cons_zero, Option.some.injEq] at hp
        exact absurd hp ha
      | succ p =>
        simp only [List.getElem?_cons_succ] at hp
        obtain ⟨h, r, e, h1, h2⟩ := ih (i + 1) p hp
        exact ⟨h, r, by simp [findColonPositionsFrom, ha, e], by omega, by omega⟩

theorem dangerousLoop_total (pva : PathVulnerabilityAnalyzer)
    (hlen : pva.length ≤ pva.tokens.length) :
    ∀ n i, i + n ≤ pva.length → ∃ b, dangerousLoop pva n i = some b := by
  intro n
  induction n with
  | zero => intro i _; exact ⟨false, rfl⟩
  | succ n ih =>
    intro i h
    have hi : i < pva.tokens.length := by omega
    have e0 : pva.tokens[i]? = some pva.tokens[i] := List.getElem?_eq_getElem hi
    obtain ⟨b, hb⟩ := ih (i + 1) (by omega)
    simp only [dangerousLoop, e0, hb]
    split
    · exact ⟨true, rfl⟩
    · by_cases h1 : i < pva.length - 1
      · have hi1 : i + 1 < pva.tokens.length := by omega
        have e1 : pva.tokens[i + 1]? = some pva.tokens[i + 1] := List.getElem?_eq_getElem hi1
        simp only [h1, decide_True, andAlso_true, tokenIs_of_get _ _ _ _ e1, andAlso_some_bool]
        cases (pva.tokens[i] == '.' && pva.tokens[i + 1] == '.')
        · exact ⟨b, rfl⟩
        · exact ⟨true, rfl⟩
      · simp only [h1, decide_False, andAlso_false, ifReturn_false]
        exact ⟨b, rfl⟩

theorem dangerousLoop_benign (pva : PathVulnerabilityAnalyzer)
    (hlen : pva.length ≤ pva.tokens.length)
    (hb : ∀ t ∈ pva.tokens, t ≠ '/' ∧ t ≠ '\\' ∧ t ≠ '%' ∧ t ≠ '\x00' ∧ t ≠ '.') :
    ∀ n i, i + n ≤ pva.length → dangerousLoop pva n i = some false := by
  intro n
  induction n with
  | zero => intro i _; rfl
  | succ n ih =>
    intro i h
    have hi : i < pva.tokens.length := by omega
    have e0 : pva.tokens[i]? = some pva.tokens[i] := List.getElem?_eq_getElem hi
    have hbi := hb pva.tokens[i] (List.getElem_mem hi)
    have hnd : ¬ (pva.tokens[i] = '/' ∨ pva.tokens[i] = '\\' ∨ pva.tokens[i] = '%' ∨
        pva.tokens[i] = '\x00') := by
      intro hc
      rcases hc with hc | hc | hc | hc
      · exact hbi.1 hc
      · exact hbi.2.1 hc
      · exact hbi.2.2.1 hc
      · exact hbi.2.2.2.1 hc
    have hdot : (pva.tokens[i] == '.') = false := by simpa using hbi.2.2.2.2
    simp only [dangerousLoop, e0, if_neg hnd, hdot, andAlso_false, ih (i + 1) (by omega)]
    cases decide (i < pva.length - 1) <;> rfl

theorem dangerousLoop_separator (pva : PathVulnerabilityAnalyzer) :
    ∀ n i j, i ≤ j → j < i + n →
      (pva.tokens[j]? = some '/' ∨ pva.tokens[j]? = some '\\') →
      dangerousLoop pva n i = some true := by
  intro n
  induction n with
  | zero => intro i j h1 h2; omega
  | succ n ih =>
    intro i j h1 h2 hj
    have hjlen : j < pva.tokens.length := by
      rcases hj with hj | hj <;> exact (List.getElem?_eq_some.1 hj).1
    have hi : i < pva.tokens.length := by omega
    have e0 : pva.tokens[i]? = some pva.tokens[i] := List.getElem?_eq_getElem hi
    simp only [dangerousLoop, e0]
    split
    · rfl
    · next hnd =>
      have hne : i ≠ j := by
        intro hij
        subst hij
        rw [e0] at hj
        apply hnd
        rcases hj with hj | hj <;> simp only [Option.some.injEq] at hj <;> simp [hj]
      have hi1 : i + 1 < pva.tokens.length := by omega
      have e1 : pva.tokens[i + 1]? = some pva.tokens[i + 1] := List.getElem?_eq_getElem hi1
      rw [ih (i + 1) j (by omega) (by omega) hj]
      simp only [tokenIs_of_get _ _ _ _ e1, andAlso_some_bool]
      cases (decide (i < pva.length - 1) && (pva.tokens[i] == '.' && pva.tokens[i + 1] == '.')) <;>
        rfl

theorem hasDangerousPatternsAfter_total (pva : PathVulnerabilityAnalyzer)
    (hlen : pva.length ≤ pva.tokens.length) (pos : Nat) :
    ∃ b, hasDangerousPatternsAfter pva pos = some b := by
  unfold hasDangerousPatternsAfter
  by_cases h : pos + 1 ≤ pva.length
  · exact dangerousLoop_total pva hlen _ _ (by omega)
  · have h0 : pva.length - (pos + 1) = 0 := by omega
    rw [h0]
    exact ⟨false, rfl⟩

theorem hasDangerousPatternsAfter_benign (pva : PathVulnerabilityAnalyzer)
    (hlen : pva.length ≤ pva.tokens.length)
    (hb : ∀ t ∈ pva.tokens, t ≠ '/' ∧ t ≠ '\\' ∧ t ≠ '%' ∧ t ≠ '\x00' ∧ t ≠ '.') (pos : Nat) :
    hasDangerousPatternsAfter pva pos = some false := by
  unfold hasDangerousPatternsAfter
  by_cases h : pos + 1 ≤ pva.length
  · exact dangerousLoop_benign pva hlen hb _ _ (by omega)
  · have h0 : pva.length - (pos + 1) = 0 := by omega
    rw [h0]
    rfl

theorem hasDangerousPatternsAfter_separator (pva : PathVulnerabilityAnalyzer)
    (hlen : pva.tokens.length ≤ pva.length) (pos q : Nat) (hq : pos < q)
    (hsep : pva.tokens[q]? = some '/' ∨ pva.tokens[q]? = some '\\') :
    hasDangerousPatternsAfter pva pos = some true := by
  have hqlen : q < pva.tokens.length := by
    rcases hsep with h | h <;> exact (List.getElem?_eq_some.1 h).1
  unfold hasDangerousPatternsAfter
  exact dangerousLoop_separator pva _ _ q (by omega) (by omega) hsep

theorem analyzeSingleCharColon_eq (pva : PathVulnerabilityAnalyzer) (t2 : Char)
    (h2 : pva.tokens[2]? = some t2) (hl : 2 < pva.length) :
    analyzeSingleCharColon pva =
      if t2 = '\\' ∨ t2 = '/' then some true else hasDangerousPatternsAfter pva 1 := by
  unfold analyzeSingleCharColon
  have h1 : ¬ pva.length < 2 := by omega
  have h3 : ¬ pva.length = 2 := by omega
  have h4 : decide (pva.length > 2) = true := by simpa using hl
  simp only [if_neg h1, if_neg h3, h4, andAlso_true, tokenIs_of_get _ _ _ _ h2, orElse_some_bool]
  by_cases hs : t2 = '\\' ∨ t2 = '/'
  · have hb : (t2 == '\\' || t2 == '/') = true := by simpa using hs
    rw [if_pos hs, hb]
    rfl
  · have hb : (t2 == '\\' || t2 == '/') = false := by simpa using hs
    rw [if_neg hs, hb]
    rfl

theorem analyzeColonAtPosition_total (pva : PathVulnerabilityAnalyzer)
    (hlen : pva.length ≤ pva.tokens.length) (pos : Nat) :
    ∃ b, analyzeColonAtPosition pva pos = some b := by
  unfold analyzeColonAtPosition
  split
  · unfold analyzeColonAtStart
    split
    · exact ⟨false, rfl⟩
    · exact hasDangerousPatternsAfter_total pva hlen 0
  · split
    · by_cases hl : 2 < pva.length
      · have h2 : pva.tokens[2]? = some pva.tokens[2] := List.getElem?_eq_getElem (by omega)
        rw [analyzeSingleCharColon_eq pva _ h2 hl]
        split
        · exact ⟨true, rfl⟩
        · exact hasDangerousPatternsAfter_total pva hlen 1
      · unfold analyzeSingleCharColon
        split
        · exact ⟨false, rfl⟩
        · rw [if_pos (by omega)]
          exact ⟨false, rfl⟩
    · split
      · exact hasDangerousPatternsAfter_total pva hlen pos
      · exact ⟨false, rfl⟩

theorem analyzeColonAtPosition_benign (pva : PathVulnerabilityAnalyzer)
    (hlen : pva.length ≤ pva.tokens.length)
    (hb : ∀ t ∈ pva.tokens, t ≠ '/' ∧ t ≠ '\\' ∧ t ≠ '%' ∧ t ≠ '\x00' ∧ t ≠ '.') (pos : Nat) :
    analyzeColonAtPosition pva pos = some false := by
  unfold analyzeColonAtPosition
  split
  · unfold analyzeColonAtStart
    split
    · rfl
    · exact hasDangerousPatternsAfter_benign pva hlen hb 0
  · split
    · by_cases hl : 2 < pva.length
      · have h2lt : 2 < pva.tokens.length := by omega
        have h2 : pva.tokens[2]? = some pva.tokens[2] := List.getElem?_eq_getElem h2lt
        have hb2 := hb pva.tokens[2] (List.getElem_mem h2lt)
        rw [analyzeSingleCharColon_eq pva _ h2 hl, if_neg (by
          intro hc
          rcases hc with hc | hc
          · exact hb2.2.1 hc
          · exact hb2.1 hc)]
        exact hasDangerousPatternsAfter_benign pva hlen hb 1
      · unfold analyzeSingleCharColon
        split
        · rfl
        · rw [if_pos (by omega)]
    · split
      · exact hasDangerousPatternsAfter_benign pva hlen hb pos
      · rfl

theorem analyzeColonAtPosition_separator (pva : PathVulnerabilityAnalyzer)
    (hlen : pva.tokens.length ≤ pva.length) (pos q : Nat) (hq : pos < q)
    (hsep : pva.tokens[q]? = some '/' ∨ pva.tokens[q]? = some '\\') :
    analyzeColonAtPosition pva pos = some true := by
  have hqlen : q < pva.tokens.length := by
    rcases hsep with h | h <;> exact (List.getElem?_eq_some.1 h).1
  unfold analyzeColonAtPosition
  split
  · next h0 =>
    unfold analyzeColonAtStart
    rw [if_neg (by omega)]
    subst h0
    exact hasDangerousPatternsAfter_separator pva hlen 0 q hq hsep
  · split
    · next h1 =>
      subst h1
      have h2 : pva.tokens[2]? = some pva.tokens[2] := List.getElem?_eq_getElem (by omega)
      rw [analyzeSingleCharColon_eq pva _ h2 (by omega)]
      split
      · rfl
      · exact hasDangerousPatternsAfter_separator pva hlen 1 q hq hsep
    · rw [if_pos (by omega)]
      exact hasDangerousPatternsAfter_separator pva hlen pos q hq hsep

theorem colonLoop_total (pva : PathVulnerabilityAnalyzer)
    (hlen : pva.length ≤ pva.tokens.length) (l : List Nat) :
    ∃ b, colonLoop pva l = some b := by
  induction l with
  | nil => exact ⟨false, rfl⟩
  | cons p rest ih =>
    obtain ⟨b, hb⟩ := analyzeColonAtPosition_total pva hlen p
    simp only [colonLoop, hb]
    cases b
    · exact ih
    · exact ⟨true, rfl⟩

theorem colonLoop_benign (pva : PathVulnerabilityAnalyzer)
    (hlen : pva.length ≤ pva.tokens.length)
    (hb : ∀ t ∈ pva.tokens, t ≠ '/' ∧ t ≠ '\\' ∧ t ≠ '%' ∧ t ≠ '\x00' ∧ t ≠ '.')
    (l : List Nat) : colonLoop pva l = some false := by
  induction l with
  | nil => rfl
  | cons p rest ih =>
    simp only [colonLoop, analyzeColonAtPosition_benign pva hlen hb p, ifReturn_false, ih]

theorem detectColonPatterns_total (pva : PathVulnerabilityAnalyzer)
    (hlen : pva.length ≤ pva.tokens.length) : ∃ b, detectColonPatterns pva = some b := by
  unfold detectColonPatterns
  simp only []
  split
  · exact ⟨false, rfl⟩
  · exact colonLoop_total pva hlen _

theorem detectColonPatterns_benign (pva : PathVulnerabilityAnalyzer)
    (hlen : pva.length ≤ pva.tokens.length)
    (hb : ∀ t ∈ pva.tokens, t ≠ '/' ∧ t ≠ '\\' ∧ t ≠ '%' ∧ t ≠ '\x00' ∧ t ≠ '.') :
    detectColonPatterns pva = some false := by
  unfold detectColonPatterns
  simp only []
  split
  · rfl
  · exact colonLoop_benign pva hlen hb _

theorem detectColonPatterns_no_colon (pva : PathVulnerabilityAnalyzer)
    (h : ∀ x ∈ pva.tokens, x ≠ ':') : detectColonPatterns pva = some false := by
  unfold detectColonPatterns findColonPositions
  rw [findColonPositionsFrom_no_colon pva.tokens h 0]
  rfl

theorem detectColonPatterns_separator (pva : PathVulnerabilityAnalyzer)
    (hlen : pva.tokens.length ≤ pva.length) (p q : Nat) (hpq : p < q)
    (hp : pva.tokens[p]? = some ':')
    (hsep : pva.tokens[q]? = some '/' ∨ pva.tokens[q]? = some '\\') :
    detectColonPatterns pva = some true := by
  obtain ⟨h, rest, e, _, h2⟩ := findColonPositionsFrom_head pva.tokens 0 p hp
  unfold detectColonPatterns findColonPositions
  rw [e]
  simp only [List.length_cons, Nat.add_one_ne_zero, if_false, colonLoop,
    analyzeColonAtPosition_separator pva hlen h q (by omega) hsep, ifReturn_true]

/-! ## The device-name rule -/

theorem splitAux_head (sep : Char) (cs : List Char) :
    ∀ cur, (splitAux sep cs cur)[0]? =
      some ⟨cur.reverse ++ cs.takeWhile (fun c => c != sep)⟩ := by
  induction cs with
  | nil => intro cur; simp [splitAux]
  | cons c rest ih =>
    intro cur
    by_cases hc : c = sep
    · subst hc
      simp [splitAux]
    · have hb : (c != sep) = true := by simpa using hc
      simp only [splitAux, if_neg hc, ih, List.takeWhile_cons, hb, if_true, List.reverse_cons,
        List.append_assoc, List.singleton_append]

theorem detectWindowsDeviceNames_eq (pva : PathVulnerabilityAnalyzer) :
    detectWindowsDeviceNames pva =
      some (reservedNames.contains
        (ToUpper ⟨pva.path.data.takeWhile (fun c => c != '/')⟩)) := by
  have h := splitAux_head '/' pva.path.data []
  simp only [List.reverse_nil, List.nil_append] at h
  have hlen : ¬ (Split pva.path '/').length = 0 := by
    intro h0
    have : Split pva.path '/' = [] := List.length_eq_zero.1 h0
    unfold Split at this
    rw [this] at h
    simp at h
  unfold detectWindowsDeviceNames
  simp only [if_neg hlen]
  unfold Split
  rw [h]

theorem reservedNames_chars :
    ∀ n ∈ reservedNames, ∀ c ∈ n.data, c.isUpper = true ∨ c.isDigit = true := by
  decide

theorem reservedNames_nonempty : ∀ n ∈ reservedNames, n.data ≠ [] := by
  decide

theorem not_reserved_of_mem (l : List Char) (x : Char) (hx : x ∈ l)
    (hu : (unicodeToUpper x).isUpper = false) (hd : (unicodeToUpper x).isDigit = false) :
    reservedNames.contains (ToUpper ⟨l⟩) = false := by
  cases hc : reservedNames.contains (ToUpper ⟨l⟩)
  · rfl
  · exfalso
    have hmem : ToUpper ⟨l⟩ ∈ reservedNames := by simpa using hc
    have hin : unicodeToUpper x ∈ (ToUpper ⟨l⟩).data := by
      simp only [ToUpper]
      exact List.mem_map_of_mem _ hx
    rcases reservedNames_chars _ hmem _ hin with h | h
    · rw [h] at hu; cases hu
    · rw [h] at hd; cases hd

theorem toUpper_of_not_lower (x : Char) (h : x.isLower = false) : x.toUpper = x := by
  have hn : ¬ (x.toNat ≥ 97 ∧ x.toNat ≤ 122) := by
    intro hc
    have : x.isLower = true := by
      simp only [Char.isLower, Bool.and_eq_true, decide_eq_true_eq]
      exact hc
    rw [this] at h
    cases h
  simp only [Char.toUpper, if_neg hn]

theorem unicodeToUpper_eq_toUpper (x : Char)
    (h : x.toUpper.isUpper = true ∨ x.toUpper.isDigit = true) :
    unicodeToUpper x = x.toUpper := by
  by_cases hl : x.isLower = true
  · have h1 : 'a' ≤ x ∧ x ≤ 'z' := by
      simpa [Char.isLower, Char.le_def] using hl
    have h2 : x.toNat ≥ 97 ∧ x.toNat ≤ 122 := h1
    simp only [unicodeToUpper, if_pos h1, Char.toUpper, if_pos h2]
  · have hl2 : x.isLower = false := by simpa using hl
    have e := toUpper_of_not_lower x hl2
    rw [e] at h ⊢
    have h1 : ¬ ('a' ≤ x ∧ x ≤ 'z') := by
      intro hc
      apply hl
      simpa [Char.isLower, Char.le_def] using hc
    have h3 : x ≠ Char.ofNat 0x131 := by
      intro hc
      subst hc
      revert h
      decide
    have h4 : x ≠ Char.ofNat 0x17F := by
      intro hc
      subst hc
      revert h
      decide
    simp only [unicodeToUpper, if_neg h1, if_neg h3, if_neg h4]

theorem isAlphanum_of_toUpper (x : Char)
    (h : x.toUpper.isUpper = true ∨ x.toUpper.isDigit = true) : x.isAlphanum = true := by
  cases hl : x.isLower
  · rw [toUpper_of_not_lower x hl] at h
    rcases h with h | h <;> simp [Char.isAlphanum, Char.isAlpha, h]
  · simp [Char.isAlphanum, Char.isAlpha, hl]

theorem ne_of_isAlphanum (c x : Char) (hc : c.isAlphanum = true) (hx : x.isAlphanum = false) :
    c ≠ x := by
  intro h
  subst h
  rw [hc] at hx
  cases hx

theorem map_slashOf_eq_self (os : GOOS) (l : List Char) (h : ∀ x ∈ l, x ≠ '\\') :
    l.map (slashOf os) = l := by
  induction l with
  | nil => rfl
  | cons a rest ih =>
    rw [List.map_cons, slashOf_eq_self os a (h a (by simp)),
      ih (fun x hx => h x (by simp [hx]))]

theorem hasDotDot_no_dot (l : List Char) (h : ∀ x ∈ l, x ≠ '.') : hasDotDot l = false := by
  induction l with
  | nil => rfl
  | cons a rest ih =>
    cases rest with
    | nil => rfl
    | cons b rest2 =>
      have ha : (a == '.') = false := by simpa using h a (by simp)
      simp only [hasDotDot, ha, Bool.false_and, Bool.false_or]
      exact ih (fun x hx => h x (by simp [hx]))

theorem detectTilde_total_of_separator (pva : PathVulnerabilityAnalyzer)
    (hlen : pva.tokens.length ≤ pva.length) (p q : Nat) (hpq : p < q)
    (hp : pva.tokens[p]? = some ':')
    (hsep : pva.tokens[q]? = some '/' ∨ pva.tokens[q]? = some '\\') :
    ∃ b, detectTildeExpansion pva = some b := by
  have hqlen : q < pva.tokens.length := by
    rcases hsep with h | h <;> exact (List.getElem?_eq_some.1 h).1
  match ht : pva.tokens with
  | [] => rw [ht] at hqlen; simp at hqlen
  | [_] => rw [ht] at hqlen; simp at hqlen; omega
  | t0 :: t1 :: rest =>
    by_cases h0 : t0 = '~'
    · subst h0
      have hp0 : p ≠ 0 := by
        intro h
        subst h
        rw [ht] at hp
        simp only [List.getElem?_cons_zero, Option.some.injEq] at hp
        exact absurd hp (by decide)
      have hl2 : 2 ≤ pva.length := by
        rw [ht] at hlen
        simp only [List.length_cons] at hlen
        omega
      rw [detectTilde_cons pva t1 rest ht hl2]
      split
      · exact ⟨true, rfl⟩
      · split
        · exact ⟨false, rfl⟩
        · split
          · exact ⟨false, tildeLoop_separator pva.tokens _ 2 q (by omega) (by omega) hsep⟩
          · exact ⟨true, rfl⟩
    · exact ⟨false, detectTilde_not_tilde pva t0 (t1 :: rest) ht h0⟩

theorem colon_separator_vulnerable (os : GOOS) (s : String) (pre mid post : List Char)
    (x : Char) (hs : s.data = pre ++ ':' :: (mid ++ x :: post)) (hx : x = '/' ∨ x = '\\') :
    isVulnerablePath os s = some true := by
  rw [isVulnerablePath_eq os s (by simp [hs])]
  split
  · rfl
  · have hlen := tokens_le_length os s
    have ht : (NewPathAnalyzer os s).tokens =
        pre.map (slashOf os) ++ ':' :: (mid.map (slashOf os) ++ slashOf os x :: post.map (slashOf os)) := by
      rw [NewPathAnalyzer_tokens, hs]
      simp [slashOf_eq_self os ':' (by decide)]
    have hp : (NewPathAnalyzer os s).tokens[pre.length]? = some ':' := by
      rw [ht, List.getElem?_append_right (by simp)]
      simp
    have hq : (NewPathAnalyzer os s).tokens[pre.length + 1 + mid.length]? = some (slashOf os x) := by
      rw [ht]
      rw [List.getElem?_append_right (by simp; omega)]
      have e : pre.length + 1 + mid.length - (pre.map (slashOf os)).length = mid.length + 1 := by
        simp only [List.length_map]
        omega
      rw [e, List.getElem?_cons_succ, List.getElem?_append_right (by simp)]
      simp
    have hsep : (NewPathAnalyzer os s).tokens[pre.length + 1 + mid.length]? = some '/' ∨
        (NewPathAnalyzer os s).tokens[pre.length + 1 + mid.length]? = some '\\' := by
      rw [hq]
      rcases slashOf_separator os x hx with h | h <;> rw [h] <;> simp
    have hne : (NewPathAnalyzer os s).length ≠ 0 := by
      have := (List.getElem?_eq_some.1 hp).1
      omega
    obtain ⟨b2, hb2⟩ := detectTilde_total_of_separator _ hlen _ _ (by omega) hp hsep
    rw [hb2, detectColonPatterns_separator _ hlen _ _ (by omega) hp hsep]
    match hts : (NewPathAnalyzer os s).tokens with
    | [] => rw [hts] at hp; simp at hp
    | t0 :: rest =>
      rw [detectAbsolutePaths_cons _ t0 rest hts hne]
      cases ((t0 == '/' || t0 == '\\') && decide ((NewPathAnalyzer os s).length > 1)) <;>
        cases b2 <;> rfl

/-! ## Strings on which no rule triggers -/

theorem NewPathAnalyzer_path_data (os : GOOS) (s : String) :
    (NewPathAnalyzer os s).path.data = s.data.map (slashOf os) := by
  rw [NewPathAnalyzer_eq]

theorem device_eq (os : GOOS) (s : String) :
    detectWindowsDeviceNames (NewPathAnalyzer os s) =
      some (reservedNames.contains
        (ToUpper ⟨(s.data.map (slashOf os)).takeWhile (fun c => c != '/')⟩)) := by
  rw [detectWindowsDeviceNames_eq, NewPathAnalyzer_path_data]

theorem length_eq_of_ascii (os : GOOS) (s : String) (h : ∀ c ∈ s.data, c.toNat < 128) :
    (NewPathAnalyzer os s).length = (NewPathAnalyzer os s).tokens.length := by
  rw [NewPathAnalyzer_length, NewPathAnalyzer_tokens, utf8Len_of_ascii s.data h, List.length_map]

theorem safe_of_rules (os : GOOS) (s : String) (h0 : s.data ≠ [])
    (hdots : hasDotDot s.data = false) (hpct : ∀ x ∈ s.data, x ≠ '%')
    (habs : detectAbsolutePaths (NewPathAnalyzer os s) = some false)
    (htilde : detectTildeExpansion (NewPathAnalyzer os s) = some false)
    (hcolon : detectColonPatterns (NewPathAnalyzer os s) = some false)
    (hdev : detectWindowsDeviceNames (NewPathAnalyzer os s) = some false) :
    isVulnerablePath os s = some false := by
  have hp : s.data.any (fun token => token == '%') = false := by
    rw [List.any_eq_false]
    intro x hx
    simpa using hpct x hx
  rw [isVulnerablePath_eq os s h0, hdots, hp, habs, htilde, hcolon, hdev]
  rfl

theorem abs_false_of_head (os : GOOS) (s : String) (t0 : Char) (rest : List Char)
    (hs : s.data = t0 :: rest) (h1 : t0 ≠ '/') (h2 : t0 ≠ '\\') :
    detectAbsolutePaths (NewPathAnalyzer os s) = some false := by
  have ht : (NewPathAnalyzer os s).tokens = t0 :: rest.map (slashOf os) := by
    rw [NewPathAnalyzer_tokens, hs, List.map_cons, slashOf_eq_self os t0 h2]
  have hne : (NewPathAnalyzer os s).length ≠ 0 := by
    have := tokens_le_length os s
    rw [ht] at this
    simp only [List.length_cons] at this
    omega
  rw [detectAbsolutePaths_cons _ t0 _ ht hne]
  have e1 : (t0 == '/') = false := by simpa using h1
  have e2 : (t0 == '\\') = false := by simpa using h2
  rw [e1, e2]
  rfl

theorem tilde_false_of_head (os : GOOS) (s : String) (t0 : Char) (rest : List Char)
    (hs : s.data = t0 :: rest) (h1 : t0 ≠ '~') (h2 : t0 ≠ '\\') :
    detectTildeExpansion (NewPathAnalyzer os s) = some false := by
  have ht : (NewPathAnalyzer os s).tokens = t0 :: rest.map (slashOf os) := by
    rw [NewPathAnalyzer_tokens, hs, List.map_cons, slashOf_eq_self os t0 h2]
  exact detectTilde_not_tilde _ t0 _ ht h1

theorem device_false_of_mem (os : GOOS) (s : String) (x : Char)
    (hno : ∀ c ∈ s.data, c ≠ '/' ∧ c ≠ '\\') (hx : x ∈ s.data)
    (hu : (unicodeToUpper x).isUpper = false) (hd : (unicodeToUpper x).isDigit = false) :
    detectWindowsDeviceNames (NewPathAnalyzer os s) = some false := by
  rw [device_eq, map_slashOf_eq_self os s.data (fun c hc => (hno c hc).2)]
  have htw : s.data.takeWhile (fun c => c != '/') = s.data := by
    rw [List.takeWhile_eq_self_iff]
    intro c hc
    simpa using (hno c hc).1
  rw [htw, not_reserved_of_mem s.data x hx hu hd]

theorem colon_alnum_safe_aux (os : GOOS) (s : String)
    (hchars : ∀ x ∈ s.data, x.isAlphanum = true ∨ x = ':') (hcolon : ':' ∈ s.data) :
    isVulnerablePath os s = some false := by
  have hne : ∀ (y : Char), y.isAlphanum = false → y ≠ ':' → ∀ x ∈ s.data, x ≠ y := by
    intro y hy hy2 x hx
    rcases hchars x hx with h | h
    · exact ne_of_isAlphanum x y h hy
    · rw [h]; exact fun e => hy2 e.symm
  have hascii : ∀ c ∈ s.data, c.toNat < 128 := by
    intro c hc
    rcases hchars c hc with h | h
    · exact isAlphanum_ascii c h
    · rw [h]; decide
  have hback := hne '\\' (by decide) (by decide)
  have hslash := hne '/' (by decide) (by decide)
  have htok : (NewPathAnalyzer os s).tokens = s.data := by
    rw [NewPathAnalyzer_tokens, map_slashOf_eq_self os s.data hback]
  have hlen := length_eq_of_ascii os s hascii
  match hs : s.data with
  | [] => rw [hs] at hcolon; simp at hcolon
  | t0 :: rest =>
    have h0 : t0 ∈ s.data := by rw [hs]; simp
    apply safe_of_rules os s (by rw [hs]; simp)
    · exact hasDotDot_no_dot s.data (hne '.' (by decide) (by decide))
    · exact hne '%' (by decide) (by decide)
    · exact abs_false_of_head os s t0 rest hs (hslash t0 h0) (hback t0 h0)
    · exact tilde_false_of_head os s t0 rest hs (hne '~' (by decide) (by decide) t0 h0)
        (hback t0 h0)
    · apply detectColonPatterns_benign _ (by omega)
      rw [htok]
      intro t ht
      exact ⟨hslash t ht, hback t ht, hne '%' (by decide) (by decide) t ht,
        hne '\x00' (by decide) (by decide) t ht, hne '.' (by decide) (by decide) t ht⟩
    · exact device_false_of_mem os s ':' (fun c hc => ⟨hslash c hc, hback c hc⟩) hcolon
        (by decide) (by decide)

theorem isDigit_false_of_isAlpha (c : Char) (h : c.isAlpha = true) : c.isDigit = false := by
  cases hd : c.isDigit
  · rfl
  · exfalso
    rw [isAlpha_iff] at h
    rw [isDigit_iff] at hd
    simp only [char_le_iff] at h hd
    have e1 : 'A'.toNat = 65 := rfl
    have e2 : 'a'.toNat = 97 := rfl
    have e3 : '9'.toNat = 57 := rfl
    omega

theorem slashOf_ne (os : GOOS) (x y : Char) (hy : y ≠ '/') (hx : x ≠ y) : slashOf os x ≠ y := by
  unfold slashOf
  split
  · exact fun e => hy e.symm
  · exact hx

theorem tilde_forms_safe (os : GOOS) (s : String) (c : Char) (w : List Char)
    (hs : s.data = '~' :: c :: w)
    (hc : c.isAlpha = true ∨ (c.isDigit = true ∧ w = []))
    (hw : ∀ x ∈ w, x.isAlphanum = true ∨ x = '/' ∨ x = '\\') :
    isVulnerablePath os s = some false := by
  have hcn : c.isAlphanum = true := by
    rw [isAlphanum_iff]
    rcases hc with h | h
    · exact Or.inl h
    · exact Or.inr h.1
  have hne : ∀ (y : Char), y.isAlphanum = false → y ≠ '~' → y ≠ '/' → y ≠ '\\' →
      ∀ x ∈ s.data, x ≠ y := by
    intro y hy h1 h2 h3 x hx
    rw [hs] at hx
    simp only [List.mem_cons] at hx
    rcases hx with hx | hx | hx
    · rw [hx]; exact fun e => h1 e.symm
    · rw [hx]; exact ne_of_isAlphanum c y hcn hy
    · rcases hw x hx with h | h | h
      · exact ne_of_isAlphanum x y h hy
      · rw [h]; exact fun e => h2 e.symm
      · rw [h]; exact fun e => h3 e.symm
  have hascii : ∀ x ∈ s.data, x.toNat < 128 := by
    intro x hx
    rw [hs] at hx
    simp only [List.mem_cons] at hx
    rcases hx with hx | hx | hx
    · rw [hx]; decide
    · rw [hx]; exact isAlphanum_ascii c hcn
    · rcases hw x hx with h | h | h
      · exact isAlphanum_ascii x h
      · rw [h]; decide
      · rw [h]; decide
  have hlen := length_eq_of_ascii os s hascii
  have hc1 : c ≠ '/' := ne_of_isAlphanum c '/' hcn (by decide)
  have hc2 : c ≠ '\\' := ne_of_isAlphanum c '\\' hcn (by decide)
  have ht : (NewPathAnalyzer os s).tokens = '~' :: c :: w.map (slashOf os) := by
    rw [NewPathAnalyzer_tokens, hs, List.map_cons, List.map_cons,
      slashOf_eq_self os '~' (by decide), slashOf_eq_self os c hc2]
  have hl2 : (NewPathAnalyzer os s).length = w.length + 2 := by
    rw [hlen, ht]
    simp
  apply safe_of_rules os s (by rw [hs]; simp)
  · exact hasDotDot_no_dot s.data (hne '.' (by decide) (by decide) (by decide) (by decide))
  · exact hne '%' (by decide) (by decide) (by decide) (by decide)
  · exact abs_false_of_head os s '~' (c :: w) hs (by decide) (by decide)
  · rw [detectTilde_cons _ c _ ht (by omega), if_neg (by
      intro h
      rcases h with h | h
      · exact hc1 h
      · exact hc2 h)]
    rcases hc with h | h
    · rw [if_neg (by
        intro hd
        rw [isDigit_false_of_isAlpha c h] at hd
        cases hd.2), if_pos h]
      exact tildeLoop_in_bounds _ _ _ (by omega)
    · have hw0 : w.length = 0 := by rw [h.2]; rfl
      rw [if_pos ⟨by omega, h.1⟩]
  · apply detectColonPatterns_no_colon
    rw [ht]
    intro x hx
    simp only [List.mem_cons, List.mem_map] at hx
    rcases hx with hx | hx | ⟨y, hy, hx⟩
    · rw [hx]; decide
    · rw [hx]; exact ne_of_isAlphanum c ':' hcn (by decide)
    · rw [← hx]
      apply slashOf_ne os y ':' (by decide)
      exact hne ':' (by decide) (by decide) (by decide) (by decide) y (by rw [hs]; simp [hy])
  · rw [device_eq, hs]
    have e : (List.map (slashOf os) ('~' :: c :: w)).takeWhile (fun c => c != '/') =
        '~' :: (List.map (slashOf os) (c :: w)).takeWhile (fun c => c != '/') := by
      rw [List.map_cons, slashOf_eq_self os '~' (by decide), List.takeWhile_cons]
      rfl
    rw [e, not_reserved_of_mem _ '~' (by simp) (by decide) (by decide)]

/-! ## Reserved names in any letter case -/

theorem case_mixture_chars (n : String) (hn : n ∈ reservedNames) (m : List Char)
    (hm : m.map Char.toUpper = n.data) :
    ∀ x ∈ m, x.isAlphanum = true ∧ unicodeToUpper x = x.toUpper := by
  intro x hx
  have hin : x.toUpper ∈ n.data := by
    rw [← hm]
    exact List.mem_map_of_mem _ hx
  have h := reservedNames_chars n hn _ hin
  exact ⟨isAlphanum_of_toUpper x h, unicodeToUpper_eq_toUpper x h⟩

theorem case_mixture_upper (n : String) (hn : n ∈ reservedNames) (m : List Char)
    (hm : m.map Char.toUpper = n.data) : ToUpper ⟨m⟩ = n := by
  have e : m.map unicodeToUpper = m.map Char.toUpper :=
    List.map_congr_left (fun x hx => (case_mixture_chars n hn m hm x hx).2)
  simp only [ToUpper, e, hm]

theorem case_mixture_nonempty (n : String) (hn : n ∈ reservedNames) (m : List Char)
    (hm : m.map Char.toUpper = n.data) : m ≠ [] := by
  intro h
  subst h
  exact reservedNames_nonempty n hn hm.symm

theorem orElse_chain_true (a b c : Bool) :
    orElse (some a) (orElse (some b) (orElse (some c) (some true))) = some true := by
  cases a <;> cases b <;> cases c <;> rfl

theorem reserved_component_vulnerable (os : GOOS) (s n : String) (hn : n ∈ reservedNames)
    (m suffix : List Char) (hm : m.map Char.toUpper = n.data) (hs : s.data = m ++ suffix)
    (hsuf : suffix = [] ∨ ∃ w, suffix = '/' :: w) (hascii : ∀ x ∈ suffix, x.toNat < 128) :
    isVulnerablePath os s = some true := by
  have hchars := case_mixture_chars n hn m hm
  have hall : ∀ x ∈ s.data, x.toNat < 128 := by
    intro x hx
    rw [hs, List.mem_append] at hx
    rcases hx with hx | hx
    · exact isAlphanum_ascii x (hchars x hx).1
    · exact hascii x hx
  have hlen := length_eq_of_ascii os s hall
  have hmback : ∀ x ∈ m, x ≠ '\\' := fun x hx =>
    ne_of_isAlphanum x '\\' (hchars x hx).1 (by decide)
  have hmslash : ∀ x ∈ m, (fun c => c != '/') x = true := by
    intro x hx
    simpa using ne_of_isAlphanum x '/' (hchars x hx).1 (by decide)
  obtain ⟨t0, mrest, hmm⟩ := List.exists_cons_of_ne_nil (case_mixture_nonempty n hn m hm)
  have ht0 : t0.isAlphanum = true := (hchars t0 (by rw [hmm]; simp)).1
  have hs2 : s.data = t0 :: (mrest ++ suffix) := by rw [hs, hmm]; rfl
  rw [isVulnerablePath_eq os s (by rw [hs2]; simp)]
  split
  · rfl
  · obtain ⟨b, hb⟩ := detectColonPatterns_total (NewPathAnalyzer os s) (by omega)
    have hdev : detectWindowsDeviceNames (NewPathAnalyzer os s) = some true := by
      have hpre : (s.data.map (slashOf os)).takeWhile (fun c => c != '/') = m := by
        rw [hs, List.map_append, map_slashOf_eq_self os m hmback,
          List.takeWhile_append_of_pos hmslash]
        rcases hsuf with h | ⟨w, h⟩
        · rw [h]; simp
        · rw [h, List.map_cons, slashOf_eq_self os '/' (by decide)]
          simp
      rw [device_eq, hpre, case_mixture_upper n hn m hm]
      simpa using hn
    rw [abs_false_of_head os s t0 _ hs2 (ne_of_isAlphanum t0 '/' ht0 (by decide))
        (ne_of_isAlphanum t0 '\\' ht0 (by decide)),
      tilde_false_of_head os s t0 _ hs2 (ne_of_isAlphanum t0 '~' ht0 (by decide))
        (ne_of_isAlphanum t0 '\\' ht0 (by decide)), hb, hdev]
    exact orElse_chain_true false false b

theorem hasDotDot_cons_of_ne (a : Char) (l : List Char) (ha : a ≠ '.') :
    hasDotDot (a :: l) = hasDotDot l := by
  have e : (a == '.') = false := by simpa using ha
  cases l with
  | nil => rfl
  | cons b rest => simp only [hasDotDot, e, Bool.false_and, Bool.false_or]

theorem hasDotDot_single_dot (m e : List Char) (hm : ∀ x ∈ m, x ≠ '.')
    (he : ∀ x ∈ e, x ≠ '.') : hasDotDot (m ++ '.' :: e) = false := by
  induction m with
  | nil =>
    cases e with
    | nil => rfl
    | cons y rest =>
      have hy : (y == '.') = false := by simpa using he y (by simp)
      simp only [List.nil_append, hasDotDot, hy, Bool.and_false, Bool.false_or]
      exact hasDotDot_no_dot _ he
  | cons a rest ih =>
    rw [List.cons_append, hasDotDot_cons_of_ne a _ (hm a (by simp))]
    exact ih (fun x hx => hm x (by simp [hx]))

theorem reserved_with_extension_safe (os : GOOS) (s n : String) (hn : n ∈ reservedNames)
    (m e : List Char) (hm : m.map Char.toUpper = n.data) (hs : s.data = m ++ '.' :: e)
    (he : ∀ x ∈ e, x.isAlphanum = true) :
    isVulnerablePath os s = some false := by
  have hchars := case_mixture_chars n hn m hm
  have hdotmem : '.' ∈ s.data := by rw [hs]; simp
  have hne : ∀ (y : Char), y.isAlphanum = false → y ≠ '.' → ∀ x ∈ s.data, x ≠ y := by
    intro y hy hy2 x hx
    rw [hs] at hx
    simp only [List.mem_append, List.mem_cons] at hx
    rcases hx with hx | hx | hx
    · exact ne_of_isAlphanum x y (hchars x hx).1 hy
    · rw [hx]; exact fun e => hy2 e.symm
    · exact ne_of_isAlphanum x y (he x hx) hy
  have hascii : ∀ x ∈ s.data, x.toNat < 128 := by
    intro x hx
    rw [hs] at hx
    simp only [List.mem_append, List.mem_cons] at hx
    rcases hx with hx | hx | hx
    · exact isAlphanum_ascii x (hchars x hx).1
    · rw [hx]; decide
    · exact isAlphanum_ascii x (he x hx)
  have hback := hne '\\' (by decide) (by decide)
  have hslash := hne '/' (by decide) (by decide)
  have htok : (NewPathAnalyzer os s).tokens = s.data := by
    rw [NewPathAnalyzer_tokens, map_slashOf_eq_self os s.data hback]
  obtain ⟨t0, mrest, hmm⟩ := List.exists_cons_of_ne_nil (case_mixture_nonempty n hn m hm)
  have hs2 : s.data = t0 :: (mrest ++ '.' :: e) := by rw [hs, hmm]; rfl
  have h0 : t0 ∈ s.data := by rw [hs2]; simp
  apply safe_of_rules os s (by rw [hs2]; simp)
  · rw [hs]
    exact hasDotDot_single_dot m e
      (fun x hx => ne_of_isAlphanum x '.' (hchars x hx).1 (by decide))
      (fun x hx => ne_of_isAlphanum x '.' (he x hx) (by decide))
  · exact hne '%' (by decide) (by decide)
  · exact abs_false_of_head os s t0 _ hs2 (hslash t0 h0) (hback t0 h0)
  · exact tilde_false_of_head os s t0 _ hs2 (hne '~' (by decide) (by decide) t0 h0)
      (hback t0 h0)
  · apply detectColonPatterns_no_colon
    rw [htok]
    exact hne ':' (by decide) (by decide)
  · exact device_false_of_mem os s '.' (fun c hc => ⟨hslash c hc, hback c hc⟩) hdotmem
      (by decide) (by decide)

/-! ## Claims -/

/-- C1 (fails on the code): on the three-code-point string `~aé`, whose last code
point takes two bytes, the tilde rule indexes `tokens[3]` and the classifier panics,
on either build target. -/
theorem isVulnerablePath_panics_on_tilde_letter_multibyte :
    isVulnerablePath GOOS.unix "~aé" = none ∧ isVulnerablePath GOOS.windows "~aé" = none := by
  decide

/-- C2: every string with two adjacent dots anywhere, whatever stands before and
after them, is classified vulnerable. -/
theorem adjacent_dots_vulnerable (os : GOOS) (pre post : String) :
    isVulnerablePath os (pre ++ ".." ++ post) = some true := by
  have hd : (pre ++ ".." ++ post).data = pre.data ++ '.' :: '.' :: post.data := by
    simp [String.data_append]
  rw [isVulnerablePath_eq os _ (by simp [hd]), hd, hasDotDot_append_dots]
  rfl

/-- C3: every string with a percent sign anywhere is classified vulnerable. -/
theorem percent_anywhere_vulnerable (os : GOOS) (pre post : String) :
    isVulnerablePath os (pre ++ "%" ++ post) = some true := by
  have hd : (pre ++ "%" ++ post).data = pre.data ++ '%' :: post.data := by
    simp [String.data_append]
  rw [isVulnerablePath_eq os _ (by simp [hd]), hd]
  simp

/-- C4: a string whose first code point is a slash or a backslash is classified
vulnerable exactly when it has more than one code point; the lone separators are
safe. -/
theorem leading_separator_vulnerable_iff_long (os : GOOS) (rest : String) :
    isVulnerablePath os ("/" ++ rest) = some (decide (1 < ("/" ++ rest).length)) ∧
    isVulnerablePath os ("\\" ++ rest) = some (decide (1 < ("\\" ++ rest).length)) ∧
    isVulnerablePath os "/" = some false ∧ isVulnerablePath os "\\" = some false := by
  have lone : isVulnerablePath os "/" = some false ∧ isVulnerablePath os "\\" = some false := by
    cases os <;> decide
  refine ⟨?_, ?_, lone.1, lone.2⟩
  · cases hr : rest.data with
    | nil =>
      have : rest = "" := by cases rest; simp_all
      subst this
      exact lone.1
    | cons r rs =>
      have hd : ("/" ++ rest).data = '/' :: r :: rs := by simp [String.data_append, hr]
      have hl : ("/" ++ rest).length = rs.length + 2 := by
        show ("/" ++ rest).data.length = _
        rw [hd]
        rfl
      rw [leading_separator_long os _ '/' r rs hd (Or.inl rfl), hl]
      simp
  · cases hr : rest.data with
    | nil =>
      have : rest = "" := by cases rest; simp_all
      subst this
      exact lone.2
    | cons r rs =>
      have hd : ("\\" ++ rest).data = '\\' :: r :: rs := by simp [String.data_append, hr]
      have hl : ("\\" ++ rest).length = rs.length + 2 := by
        show ("\\" ++ rest).data.length = _
        rw [hd]
        rfl
      rw [leading_separator_long os _ '\\' r rs hd (Or.inr rfl), hl]
      simp

/-- C5: a string that starts with a tilde followed by a slash or a backslash is
classified vulnerable, whatever follows. -/
theorem tilde_separator_vulnerable (os : GOOS) (rest : String) :
    isVulnerablePath os ("~/" ++ rest) = some true ∧
    isVulnerablePath os ("~\\" ++ rest) = some true := by
  have key : ∀ (s : String) (t1 : Char) (rs : List Char), s.data = '~' :: t1 :: rs →
      (t1 = '/' ∨ t1 = '\\') → isVulnerablePath os s = some true := by
    intro s t1 rs hs ht1
    rw [isVulnerablePath_eq os s (by simp [hs])]
    split
    · rfl
    · have hlen : 2 ≤ (NewPathAnalyzer os s).length := by
        have := length_le_utf8Len ('~' :: t1 :: rs)
        rw [NewPathAnalyzer_length, hs]
        simp only [List.length_cons] at this
        omega
      have ht : (NewPathAnalyzer os s).tokens = '~' :: slashOf os t1 :: rs.map (slashOf os) := by
        rw [NewPathAnalyzer_tokens, hs, List.map_cons, List.map_cons,
          slashOf_eq_self os '~' (by decide)]
      rw [detectAbsolutePaths_cons _ _ _ ht (by omega),
        detectTilde_separator _ _ _ ht hlen (slashOf_separator os t1 ht1)]
      rfl
  constructor
  · exact key _ '/' rest.data (by simp [String.data_append]) (Or.inl rfl)
  · exact key _ '\\' rest.data (by simp [String.data_append]) (Or.inr rfl)

/-- C6: the safe tilde forms are classified safe: the bare tilde, a tilde followed by
one decimal digit, and a tilde followed by an ASCII letter and then any text made of
ASCII letters, ASCII digits, slashes and backslashes. -/
theorem safe_tilde_forms (os : GOOS) :
    isVulnerablePath os "~" = some false ∧
    (∀ d : Char, d.isDigit = true →
      isVulnerablePath os ("~" ++ String.singleton d) = some false) ∧
    (∀ (c : Char) (w : String), c.isAlpha = true →
      (∀ x ∈ w.data, x.isAlphanum = true ∨ x = '/' ∨ x = '\\') →
      isVulnerablePath os ("~" ++ String.singleton c ++ w) = some false) := by
  refine ⟨by cases os <;> decide, ?_, ?_⟩
  · intro d hd
    exact tilde_forms_safe os _ d [] (by simp [String.data_append]) (Or.inr ⟨hd, rfl⟩)
      (by simp)
  · intro c w hc hw
    exact tilde_forms_safe os _ c w.data (by simp [String.data_append]) (Or.inl hc) hw

/-- Witness of C6 on the strings `~0` and `~A/0`. -/
theorem safe_tilde_forms_witness :
    isVulnerablePath GOOS.unix ("~" ++ String.singleton '0') = some false ∧
    isVulnerablePath GOOS.unix ("~" ++ String.singleton 'A' ++ "/0") = some false :=
  ⟨(safe_tilde_forms GOOS.unix).2.1 '0' (by decide),
    (safe_tilde_forms GOOS.unix).2.2 'A' "/0" (by decide) (by decide)⟩

/-- C7: every string in which a colon is followed, anywhere later, by a slash or a
backslash is classified vulnerable, whatever stands before, between and after. -/
theorem colon_before_separator_vulnerable (os : GOOS) (a b c : String) :
    isVulnerablePath os (a ++ ":" ++ b ++ "/" ++ c) = some true ∧
    isVulnerablePath os (a ++ ":" ++ b ++ "\\" ++ c) = some true := by
  constructor
  · exact colon_separator_vulnerable os _ a.data b.data c.data '/'
      (by simp [String.data_append]) (Or.inl rfl)
  · exact colon_separator_vulnerable os _ a.data b.data c.data '\\'
      (by simp [String.data_append]) (Or.inr rfl)

/-- C8: a string made only of ASCII letters, ASCII digits and colons, with at least
one colon, is classified safe. -/
theorem colon_among_alphanumerics_safe (os : GOOS) (s : String)
    (hchars : ∀ x ∈ s.data, x.isAlphanum = true ∨ x = ':') (hcolon : ':' ∈ s.data) :
    isVulnerablePath os s = some false :=
  colon_alnum_safe_aux os s hchars hcolon

/-- Witness of C8 on the string `COM1:`. -/
theorem colon_among_alphanumerics_safe_witness :
    (∀ x ∈ "COM1:".data, x.isAlphanum = true ∨ x = ':') ∧ ':' ∈ "COM1:".data ∧
      isVulnerablePath GOOS.windows "COM1:" = some false :=
  ⟨by decide, by decide,
    colon_among_alphanumerics_safe GOOS.windows "COM1:" (by decide) (by decide)⟩

/-- C9: each of the 22 reserved device names, in any mixture of upper and lower case
of its letters, is classified vulnerable, alone and as the first component before a
slash followed by any ASCII text. -/
theorem reserved_device_names_vulnerable (os : GOOS) (n : String)
    (hn : n ∈ ["CON", "PRN", "AUX", "NUL",
      "COM1", "COM2", "COM3", "COM4", "COM5", "COM6", "COM7", "COM8", "COM9",
      "LPT1", "LPT2", "LPT3", "LPT4", "LPT5", "LPT6", "LPT7", "LPT8", "LPT9"])
    (m : String) (hm : m.data.map Char.toUpper = n.data) :
    isVulnerablePath os m = some true ∧
    ∀ w : String, (∀ x ∈ w.data, x.toNat < 128) →
      isVulnerablePath os (m ++ "/" ++ w) = some true := by
  have hn2 : n ∈ reservedNames := hn
  constructor
  · exact reserved_component_vulnerable os m n hn2 m.data [] hm (by simp) (Or.inl rfl)
      (by simp)
  · intro w hw
    refine reserved_component_vulnerable os _ n hn2 m.data ('/' :: w.data) hm
      (by simp [String.data_append]) (Or.inr ⟨w.data, rfl⟩) ?_
    intro x hx
    simp only [List.mem_cons] at hx
    rcases hx with hx | hx
    · rw [hx]; decide
    · exact hw x hx

/-- Witness of C9 on the name `cOn` and the path `cOn/a b`. -/
theorem reserved_device_names_vulnerable_witness :
    isVulnerablePath GOOS.unix "cOn" = some true ∧
    isVulnerablePath GOOS.unix ("cOn" ++ "/" ++ "a b") = some true :=
  ⟨(reserved_device_names_vulnerable GOOS.unix "CON" (by decide) "cOn" (by decide)).1,
    (reserved_device_names_vulnerable GOOS.unix "CON" (by decide) "cOn" (by decide)).2
      "a b" (by decide)⟩

/-- C10: exact-match policy of the device-name rule. A reserved name in any letter
case followed by a dot and ASCII letters and digits is classified safe, and the rule
triggers exactly when the upper-cased text before the first slash of the normalized
path is a table entry. -/
theorem device_name_exact_match (os : GOOS) :
    (∀ n ∈ ["CON", "PRN", "AUX", "NUL",
        "COM1", "COM2", "COM3", "COM4", "COM5", "COM6", "COM7", "COM8", "COM9",
        "LPT1", "LPT2", "LPT3", "LPT4", "LPT5", "LPT6", "LPT7", "LPT8", "LPT9"],
      ∀ m e : String, m.data.map Char.toUpper = n.data →
        (∀ x ∈ e.data, x.isAlphanum = true) → e ≠ "" →
        isVulnerablePath os (m ++ "." ++ e) = some false) ∧
    (∀ s : String, detectWindowsDeviceNames (NewPathAnalyzer os s) = some true ↔
      ToUpper ⟨(ToSlash os s).data.takeWhile (fun c => c != '/')⟩ ∈ reservedNames) := by
  constructor
  · intro n hn m e hm he _
    exact reserved_with_extension_safe os _ n hn m.data e.data hm
      (by simp [String.data_append]) he
  · intro s
    rw [device_eq, ToSlash_data]
    simp

/-- Witness of C10 on the string `prn.log`. -/
theorem device_name_exact_match_witness :
    isVulnerablePath GOOS.windows ("prn" ++ "." ++ "log") = some false :=
  (device_name_exact_match GOOS.windows).1 "PRN" (by decide) "prn" "log" (by decide)
    (by decide) (by decide)

/-! ## The generator -/

theorem foldl_append_from (l : List String) :
    ∀ acc : String, List.foldl (fun r s => r ++ s) acc l =
      acc ++ List.foldl (fun r s => r ++ s) "" l := by
  induction l with
  | nil => intro acc; simp
  | cons a rest ih =>
    intro acc
    simp only [List.foldl_cons]
    rw [ih (acc ++ a), ih ("" ++ a), String.empty_append, String.append_assoc]

theorem repeatString_eq_join (s : String) (n : Nat) :
    repeatString s n = String.join (List.replicate n s) := by
  induction n with
  | zero => rfl
  | succ n ih =>
    simp only [repeatString, String.join, List.replicate_succ, List.foldl_cons]
    rw [foldl_append_from, String.empty_append, ih]
    rfl

theorem Repeat_some (s : String) (d : Nat) (r : String)
    (h : Repeat s (d : Int) = some r) : r = String.join (List.replicate d s) := by
  unfold Repeat at h
  split at h
  · cases h
  · split at h
    · cases h
    · simp only [Option.some.injEq, Int.toNat_ofNat, repeatString_eq_join] at h
      exact h.symm

theorem Repeat_dots (d : Nat) (hd : 3 * (d : Int) ≤ maxInt) :
    Repeat "../" (d : Int) = some (String.join (List.replicate d "../")) := by
  have h1 : ¬ ((d : Int) < 0) := by omega
  have h2 : ¬ ((("../".utf8ByteSize : Nat) : Int) * (d : Int) > maxInt) := by
    have e : "../".utf8ByteSize = 3 := by decide
    rw [e]
    simp only [Nat.cast_ofNat]
    omega
  simp only [Repeat, if_neg h1, if_neg h2, Int.toNat_ofNat, repeatString_eq_join]

theorem writePayloads_total (io : ZipIO) (d : Nat) (hd : 3 * (d : Int) ≤ maxInt)
    (payloads : List String) :
    ∀ written, ∃ r, writePayloads io (d : Int) payloads written = some r := by
  induction payloads with
  | nil => intro written; exact ⟨_, rfl⟩
  | cons p rest ih =>
    intro written
    simp only [writePayloads, Repeat_dots d hd]
    split
    · exact ⟨_, rfl⟩
    · split
      · exact ⟨_, rfl⟩
      · exact ih _

theorem writePayloads_ok (io : ZipIO) (d : Nat) (payloads : List String) :
    ∀ written archive, writePayloads io (d : Int) payloads written = some (Except.ok archive) →
      archive = written ++ payloads.map (fun p =>
        (⟨String.join (List.replicate d "../") ++ p, "Malicious content for " ++ p⟩ : ZipEntry)) := by
  induction payloads with
  | nil =>
    intro written archive h
    simp only [writePayloads, Option.some.injEq, Except.ok.injEq] at h
    simp [h]
  | cons p rest ih =>
    intro written archive h
    cases hr : Repeat "../" (d : Int) with
    | none =>
      simp only [writePayloads, hr] at h
      cases h
    | some dots =>
      have hdots := Repeat_some "../" d dots hr
      subst hdots
      simp only [writePayloads, hr] at h
      split at h
      · simp at h
      · split at h
        · simp at h
        · rw [ih _ _ h]
          simp

theorem writePayloads_succeeds (io : ZipIO) (d : Nat) (hd : 3 * (d : Int) ≤ maxInt)
    (hc : ∀ n, io.zipCreate n = none)
    (hw : ∀ n c, io.zipWrite n c = none) (payloads : List String) :
    ∀ written, writePayloads io (d : Int) payloads written =
      some (Except.ok (written ++ payloads.map (fun p =>
        (⟨String.join (List.replicate d "../") ++ p, "Malicious content for " ++ p⟩ : ZipEntry)))) := by
  induction payloads with
  | nil => intro written; simp [writePayloads]
  | cons p rest ih =>
    intro written
    simp only [writePayloads, Repeat_dots d hd, hc, hw, ih]
    simp

theorem generate_payloads (payloads : List String) (hne : payloads ≠ []) :
    (if payloads.length = 0 then defaultPayloads else payloads) = payloads := by
  have : payloads.length ≠ 0 := by simpa using hne
  rw [if_neg this]

theorem generate_ok (io : ZipIO) (outputFile : String) (payloads : List String) (d : Nat)
    (hne : payloads ≠ []) (archive : List ZipEntry)
    (h : generateMaliciousZip io outputFile payloads (d : Int) = some (Except.ok archive)) :
    archive = payloads.map (fun p =>
      (⟨String.join (List.replicate d "../") ++ p, "Malicious content for " ++ p⟩ : ZipEntry)) := by
  unfold generateMaliciousZip at h
  split at h
  · simp at h
  · simp only [generate_payloads payloads hne] at h
    simpa using writePayloads_ok io d payloads [] archive h

theorem dots_in_data_vulnerable (os : GOOS) (s : String) (pre post : List Char)
    (hs : s.data = pre ++ '.' :: '.' :: post) : isVulnerablePath os s = some true := by
  rw [isVulnerablePath_eq os s (by simp [hs]), hs, hasDotDot_append_dots]
  rfl

theorem hasDotDot_iff (l : List Char) :
    hasDotDot l = true ↔ ∃ i, l[i]? = some '.' ∧ l[i + 1]? = some '.' := by
  induction l with
  | nil => simp [hasDotDot]
  | cons a t ih =>
    cases t with
    | nil => simp [hasDotDot]
    | cons b rest =>
      simp only [hasDotDot, Bool.or_eq_true, Bool.and_eq_true, beq_iff_eq, ih]
      constructor
      · rintro (⟨ha, hb⟩ | ⟨i, h1, h2⟩)
        · exact ⟨0, by simp [ha], by simp [hb]⟩
        · exact ⟨i + 1, by simpa using h1, by simpa using h2⟩
      · rintro ⟨i, h1, h2⟩
        cases i with
        | zero =>
          left
          simpa using And.intro h1 h2
        | succ j =>
          right
          exact ⟨j, by simpa using h1, by simpa using h2⟩

theorem getElem?_map_slashOf_dot (os : GOOS) (l : List Char) (i : Nat) :
    (l.map (slashOf os))[i]? = some '.' ↔ l[i]? = some '.' := by
  rw [List.getElem?_map]
  cases h : l[i]? with
  | none => simp
  | some c =>
    simp only [Option.map_some', Option.some.injEq]
    unfold slashOf
    split
    · next hc =>
      subst hc
      cases os <;> simp [Separator]
    · rfl

/-! ## The scanner -/

theorem scanLoop_all_vulnerable (os : GOOS) (files : List ZipEntry)
    (h : ∀ f ∈ files, isVulnerablePath os f.name = some true) :
    ∀ acc, scanLoop os files acc = some (acc ++ files.map ZipEntry.name) := by
  induction files with
  | nil => intro acc; simp [scanLoop]
  | cons f rest ih =>
    intro acc
    simp only [scanLoop, h f (by simp)]
    rw [ih (fun g hg => h g (by simp [hg]))]
    simp

theorem scanLoop_eq_filter (os : GOOS) (files : List ZipEntry)
    (h : ∀ f ∈ files, ∃ b, isVulnerablePath os f.name = some b) :
    ∀ acc, scanLoop os files acc =
      some (acc ++ (files.map ZipEntry.name).filter
        (fun n => decide (isVulnerablePath os n = some true))) := by
  induction files with
  | nil => intro acc; simp [scanLoop]
  | cons f rest ih =>
    intro acc
    obtain ⟨b, hb⟩ := h f (by simp)
    have ih2 := ih (fun g hg => h g (by simp [hg]))
    cases b
    · simp only [scanLoop, hb, ih2, List.map_cons]
      rw [List.filter_cons_of_neg (by simp [hb])]
    · simp only [scanLoop, hb, ih2, List.map_cons]
      rw [List.filter_cons_of_pos (by simp [hb])]
      simp

theorem three_dots_prefix_vulnerable (os : GOOS) (path : String) :
    isVulnerablePath os (String.join (List.replicate 3 "../") ++ path) = some true := by
  apply dots_in_data_vulnerable os _ [] ('/' :: '.' :: '.' :: '/' :: '.' :: '.' :: '/' :: path.data)
  have e : String.join (List.replicate 3 "../") = "../../../" := by decide
  rw [e, String.data_append]
  rfl

/-! ## Claims on the order of the rules, the analyzer, the generator and the scanner -/

/-- C11 (fails on the code): on `CON/a:é` the device-name rule triggers, and the rules
evaluated in the reverse order give true, yet the classifier panics in the colon rule,
which runs first. -/
theorem verdict_panics_though_device_rule_triggers :
    isVulnerablePath GOOS.unix "CON/a:é" = none ∧
    isVulnerablePath GOOS.windows "CON/a:é" = none ∧
    detectWindowsDeviceNames (NewPathAnalyzer GOOS.unix "CON/a:é") = some true ∧
    detectWindowsDeviceNames (NewPathAnalyzer GOOS.windows "CON/a:é") = some true ∧
    orElse (detectWindowsDeviceNames (NewPathAnalyzer GOOS.unix "CON/a:é"))
      (orElse (detectColonPatterns (NewPathAnalyzer GOOS.unix "CON/a:é"))
        (orElse (detectTildeExpansion (NewPathAnalyzer GOOS.unix "CON/a:é"))
          (orElse (detectAbsolutePaths (NewPathAnalyzer GOOS.unix "CON/a:é"))
            (orElse (detectURLEncoding (NewPathAnalyzer GOOS.unix "CON/a:é"))
              (detectParentDirectoryTraversal (NewPathAnalyzer GOOS.unix "CON/a:é"))))))
      = some true := by
  decide

/-- C12 (fails on the code): the analyzer of the one-code-point string `é` has
`length` 2, the number of bytes, and one token. -/
theorem analyzer_length_counts_bytes :
    (NewPathAnalyzer GOOS.unix "é").length = 2 ∧
    (NewPathAnalyzer GOOS.unix "é").tokens.length = 1 ∧
    (NewPathAnalyzer GOOS.windows "é").length = 2 ∧
    (NewPathAnalyzer GOOS.windows "é").tokens.length = 1 := by
  decide

/-- C13 (fails on the code): at the depth `2^62`, which is not negative, the length
of the repeated prefix does not fit an `int`, `strings.Repeat` panics and the generator
writes no entry. -/
theorem generator_panics_on_prefix_overflow :
    generateMaliciousZip allSucceed "out.zip" ["../../../etc/passwd"] 4611686018427387904 =
      none ∧
    0 ≤ (4611686018427387904 : Int) ∧ (4611686018427387904 : Int) ≤ maxInt :=
  ⟨rfl, by decide, by decide⟩

/-- C13 as amended: for a non-empty payload list and a depth `d` that is not negative,
the names of the entries the generator has written when it returns no error are, in
payload order, `d` repetitions of `../` followed by the payload; and when `3 * d` fits
an `int` the generator does not panic, and it returns no error when every call to the
operating system and the archive writer succeeds. -/
theorem generator_entry_names (io : ZipIO) (outputFile : String) (payloads : List String)
    (d : Nat) (hne : payloads ≠ []) :
    (∀ archive, generateMaliciousZip io outputFile payloads (d : Int) = some (Except.ok archive) →
      archive.map ZipEntry.name =
        payloads.map (fun p => String.join (List.replicate d "../") ++ p)) ∧
    (3 * (d : Int) ≤ maxInt →
      ∃ r, generateMaliciousZip io outputFile payloads (d : Int) = some r) ∧
    (3 * (d : Int) ≤ maxInt → io.osCreate outputFile = none → (∀ n, io.zipCreate n = none) →
      (∀ n c, io.zipWrite n c = none) →
      generateMaliciousZip io outputFile payloads (d : Int) =
        some (Except.ok (payloads.map (fun p =>
          (⟨String.join (List.replicate d "../") ++ p, "Malicious content for " ++ p⟩ :
            ZipEntry))))) := by
  refine ⟨?_, ?_, ?_⟩
  · intro archive h
    rw [generate_ok io outputFile payloads d hne archive h]
    simp
  · intro hd
    unfold generateMaliciousZip
    split
    · exact ⟨_, rfl⟩
    · exact writePayloads_total io d hd _ []
  · intro hd h1 h2 h3
    unfold generateMaliciousZip
    rw [h1]
    simp only [generate_payloads payloads hne]
    exact writePayloads_succeeds io d hd h2 h3 payloads []

/-- Witness of the amended C13: the payload `../../../etc/passwd` at depth 3. -/
theorem generator_entry_names_witness :
    ["../../../etc/passwd"] ≠ [] ∧ 3 * ((3 : Nat) : Int) ≤ maxInt ∧
    generateMaliciousZip allSucceed "out.zip" ["../../../etc/passwd"] 3 =
      some (Except.ok
        [⟨"../../../../../../etc/passwd", "Malicious content for ../../../etc/passwd"⟩]) ∧
    List.map ZipEntry.name
        [(⟨"../../../../../../etc/passwd", "Malicious content for ../../../etc/passwd"⟩ :
          ZipEntry)] =
      ["../../../../../../etc/passwd"] :=
  ⟨by decide, by decide,
    (generator_entry_names allSucceed "out.zip" ["../../../etc/passwd"] 3 (by decide)).2.2
      (by decide) rfl (fun _ => rfl) (fun _ _ => rfl),
    (generator_entry_names allSucceed "out.zip" ["../../../etc/passwd"] 3 (by decide)).1
      [⟨"../../../../../../etc/passwd", "Malicious content for ../../../etc/passwd"⟩] rfl⟩

/-- C14 (fails on the code): for the payload `../../evil.txt` at depth 2 the archive
holds one entry, named `../../../../evil.txt` with the content
`Malicious content for ../../evil.txt`; no entry carries the name of the payload or the
content `malicious content`. -/
theorem generated_entry_differs_from_payload :
    ∃ archive, generateMaliciousZip allSucceed "testdata/test_basic.zip" ["../../evil.txt"] 2 =
        some (Except.ok archive) ∧
      archive = [⟨"../../../../evil.txt", "Malicious content for ../../evil.txt"⟩] ∧
      ¬ ∃ e ∈ archive, e.name = "../../evil.txt" ∧ e.content = "malicious content" :=
  ⟨[⟨"../../../../evil.txt", "Malicious content for ../../evil.txt"⟩], rfl, rfl, by decide⟩

/-- What the archive holds for each payload: whenever the generator returns no error
at a depth `d` that is not negative, there is an entry whose name is `d` repetitions of
`../` followed by the payload and whose content is `Malicious content for` followed by
the payload. -/
theorem generated_archive_entries (io : ZipIO) (outputFile : String)
    (payloads : List String) (d : Nat) (archive : List ZipEntry)
    (h : generateMaliciousZip io outputFile payloads (d : Int) = some (Except.ok archive)) :
    ∀ p ∈ payloads, ∃ e ∈ archive,
      e.name = String.join (List.replicate d "../") ++ p ∧
      e.content = "Malicious content for " ++ p := by
  intro p hp
  have hne : payloads ≠ [] := List.ne_nil_of_mem hp
  rw [generate_ok io outputFile payloads d hne archive h]
  exact ⟨_, List.mem_map_of_mem _ hp, rfl, rfl⟩

/-- C15 (fails on the code): on a readable archive whose only entry is named `~aé` the
scanner panics inside the classifier and returns nothing. -/
theorem scanner_panics_on_entry_name :
    isVulnerableZip GOOS.unix (Except.ok [⟨"~aé", "x"⟩]) = none ∧
    isVulnerableZip GOOS.windows (Except.ok [⟨"~aé", "x"⟩]) = none := by
  decide

/-- C16 (fails on the code): for the path `file.txt` generation at depth 3 succeeds and
the scan of the archive reports the flag true with the entry `../../../file.txt`,
while the classifier says that `file.txt` is safe. -/
theorem scan_flag_differs_from_direct_verdict :
    generateMaliciousZip allSucceed "test.zip" ["file.txt"] 3 =
      some (Except.ok [⟨"../../../file.txt", "Malicious content for file.txt"⟩]) ∧
    isVulnerableZip GOOS.unix
        (Except.ok [⟨"../../../file.txt", "Malicious content for file.txt"⟩]) =
      some ⟨true, ["../../../file.txt"], none⟩ ∧
    isVulnerablePath GOOS.unix "file.txt" = some false ∧
    isVulnerableZip GOOS.windows
        (Except.ok [⟨"../../../file.txt", "Malicious content for file.txt"⟩]) =
      some ⟨true, ["../../../file.txt"], none⟩ ∧
    isVulnerablePath GOOS.windows "file.txt" = some false :=
  ⟨rfl, by decide, by decide, by decide, by decide⟩

/-- The scan of an archive generated from one path at depth 3: it returns no error,
reports the single entry `../../../` followed by the path, and its flag is true. -/
theorem scan_of_single_generated (os : GOOS) (io : ZipIO) (zipPath path : String)
    (archive : List ZipEntry)
    (h : generateMaliciousZip io zipPath [path] 3 = some (Except.ok archive)) :
    isVulnerableZip os (Except.ok archive) = some ⟨true, ["../../../" ++ path], none⟩ := by
  have ha := generate_ok io zipPath [path] 3 (by simp) archive h
  have hv := three_dots_prefix_vulnerable os path
  rw [ha]
  simp only [isVulnerableZip, List.map_cons, List.map_nil]
  rw [scanLoop_all_vulnerable os _ (by
    intro f hf
    simp only [List.mem_singleton] at hf
    rw [hf]
    exact hv)]
  have e : String.join ["../", "../", "../"] = "../../../" := by decide
  simp
  rw [e]

/-- C17: the empty string is classified safe, and each of the six rules returns false
on its analyzer. -/
theorem empty_input_safe (os : GOOS) :
    isVulnerablePath os "" = some false ∧
    detectParentDirectoryTraversal (NewPathAnalyzer os "") = some false ∧
    detectURLEncoding (NewPathAnalyzer os "") = some false ∧
    detectAbsolutePaths (NewPathAnalyzer os "") = some false ∧
    detectTildeExpansion (NewPathAnalyzer os "") = some false ∧
    detectColonPatterns (NewPathAnalyzer os "") = some false ∧
    detectWindowsDeviceNames (NewPathAnalyzer os "") = some false := by
  cases os <;> decide

/-- C19 (fails on the code): on `~aé`, whose second code point is an ASCII letter, the
tilde rule does not return false: it indexes `tokens[3]` and panics. -/
theorem tilde_rule_panics_after_letter :
    detectTildeExpansion (NewPathAnalyzer GOOS.unix "~aé") = none ∧
    detectTildeExpansion (NewPathAnalyzer GOOS.windows "~aé") = none := by
  decide

/-- C20: the parent-traversal rule never panics, returns true exactly when two adjacent
code points of the string are dots, returns false on a string of fewer than two code
points, and reaches the last pair of `é..`, where `length` exceeds the number of
tokens. -/
theorem parent_rule_exact (os : GOOS) (s : String) :
    (∃ b, detectParentDirectoryTraversal (NewPathAnalyzer os s) = some b) ∧
    (detectParentDirectoryTraversal (NewPathAnalyzer os s) = some true ↔
      ∃ i, s.data[i]? = some '.' ∧ s.data[i + 1]? = some '.') ∧
    (s.length < 2 → detectParentDirectoryTraversal (NewPathAnalyzer os s) = some false) ∧
    ((NewPathAnalyzer os "é..").tokens.length < (NewPathAnalyzer os "é..").length ∧
      detectParentDirectoryTraversal (NewPathAnalyzer os "é..") = some true) := by
  have heq : detectParentDirectoryTraversal (NewPathAnalyzer os s) = some (hasDotDot s.data) := by
    rw [detectParent_eq _ (tokens_le_length os s), NewPathAnalyzer_tokens,
      hasDotDot_map_slashOf]
  refine ⟨⟨_, heq⟩, ?_, ?_, ?_⟩
  · rw [heq, Option.some.injEq, hasDotDot_iff]
  · intro hlt
    rw [heq]
    have hl : s.data.length < 2 := hlt
    match hd : s.data, hl with
    | [], _ => rfl
    | [_], _ => rfl
  · cases os <;> decide

/-- Witness of C20 on the one-code-point string `.`. -/
theorem parent_rule_exact_witness :
    ".".length < 2 ∧
    detectParentDirectoryTraversal (NewPathAnalyzer GOOS.unix ".") = some false :=
  ⟨by decide, (parent_rule_exact GOOS.unix ".").2.2.1 (by decide)⟩

/-! ## The colon rule as one scan -/

theorem dangerousSuffix_cons (t : Char) (rest : List Char) :
    dangerousSuffix (t :: rest) =
      ((t == '/' || t == '\\' || t == '%' || t == '\x00') ||
        (t == '.' && rest.head? == some '.') || dangerousSuffix rest) := by
  cases rest with
  | nil => simp [dangerousSuffix, hasDotDot]
  | cons b r =>
    simp only [dangerousSuffix, List.any_cons, hasDotDot, List.head?_cons]
    have e : (some b == some '.') = (b == '.') := by
      by_cases hb : b = '.' <;> simp [hb]
    rw [e]
    cases (t == '/' || t == '\\' || t == '%' || t == '\x00') <;>
      cases (t == '.' && b == '.') <;>
      cases (b == '/' || b == '\\' || b == '%' || b == '\x00') <;>
      cases (r.any fun c => c == '/' || c == '\\' || c == '%' || c == '\x00') <;>
      cases hasDotDot (b :: r) <;> rfl

theorem dangerousLoop_eq (pva : PathVulnerabilityAnalyzer)
    (hlen : pva.length = pva.tokens.length) :
    ∀ n i, i + n = pva.tokens.length →
      dangerousLoop pva n i = some (dangerousSuffix (pva.tokens.drop i)) := by
  intro n
  induction n with
  | zero =>
    intro i h
    rw [List.drop_eq_nil_of_le (by omega)]
    rfl
  | succ n ih =>
    intro i h
    have hi : i < pva.tokens.length := by omega
    have e0 : pva.tokens[i]? = some pva.tokens[i] := List.getElem?_eq_getElem hi
    have ihv := ih (i + 1) (by omega)
    rw [List.drop_eq_getElem_cons hi, dangerousSuffix_cons]
    simp only [dangerousLoop, e0, ihv]
    by_cases hd : pva.tokens[i] = '/' ∨ pva.tokens[i] = '\\' ∨ pva.tokens[i] = '%' ∨
        pva.tokens[i] = '\x00'
    · have hb : (pva.tokens[i] == '/' || pva.tokens[i] == '\\' || pva.tokens[i] == '%' ||
          pva.tokens[i] == '\x00') = true := by
        simpa [or_assoc] using hd
      rw [if_pos hd, hb]
      rfl
    · have hb : (pva.tokens[i] == '/' || pva.tokens[i] == '\\' || pva.tokens[i] == '%' ||
          pva.tokens[i] == '\x00') = false := by
        simpa [or_assoc, and_assoc] using hd
      rw [if_neg hd, hb]
      by_cases h1 : i + 1 < pva.tokens.length
      · have e1 : pva.tokens[i + 1]? = some pva.tokens[i + 1] := List.getElem?_eq_getElem h1
        have hlt : decide (i < pva.length - 1) = true := by simp; omega
        rw [List.drop_eq_getElem_cons h1]
        simp only [hlt, andAlso_true, tokenIs_of_get _ _ _ _ e1, andAlso_some_bool,
          List.head?_cons]
        have e : (some pva.tokens[i + 1] == some '.') = (pva.tokens[i + 1] == '.') := by
          by_cases hb2 : pva.tokens[i + 1] = '.' <;> simp [hb2]
        rw [e]
        cases (pva.tokens[i] == '.' && pva.tokens[i + 1] == '.') <;> simp
      · have hlt : decide (i < pva.length - 1) = false := by simp; omega
        rw [List.drop_eq_nil_of_le (by omega)]
        simp only [hlt, andAlso_false, ifReturn_false, List.head?_nil]
        have e : ((none : Option Char) == some '.') = false := rfl
        rw [e]
        simp

theorem hasDangerousPatternsAfter_eq (pva : PathVulnerabilityAnalyzer)
    (hlen : pva.length = pva.tokens.length) (pos : Nat) :
    hasDangerousPatternsAfter pva pos = some (dangerousSuffix (pva.tokens.drop (pos + 1))) := by
  unfold hasDangerousPatternsAfter
  by_cases h : pos + 1 ≤ pva.length
  · exact dangerousLoop_eq pva hlen _ _ (by omega)
  · have h0 : pva.length - (pos + 1) = 0 := by omega
    rw [h0, List.drop_eq_nil_of_le (by omega)]
    rfl

theorem analyzeColonAtPosition_eq (pva : PathVulnerabilityAnalyzer)
    (hlen : pva.length = pva.tokens.length) (pos : Nat) :
    analyzeColonAtPosition pva pos = hasDangerousPatternsAfter pva pos := by
  unfold analyzeColonAtPosition
  split
  · next h0 =>
    subst h0
    unfold analyzeColonAtStart
    split
    · rw [hasDangerousPatternsAfter_eq pva hlen 0, List.drop_eq_nil_of_le (by omega)]
      rfl
    · rfl
  · split
    · next h1 =>
      subst h1
      by_cases hl : 2 < pva.length
      · have h2lt : 2 < pva.tokens.length := by omega
        have h2 : pva.tokens[2]? = some pva.tokens[2] := List.getElem?_eq_getElem h2lt
        rw [analyzeSingleCharColon_eq pva _ h2 hl]
        split
        · next hsep =>
          rw [hasDangerousPatternsAfter_eq pva hlen 1, List.drop_eq_getElem_cons h2lt,
            dangerousSuffix_cons]
          rcases hsep with hsep | hsep <;> rw [hsep] <;> rfl
        · rfl
      · rw [hasDangerousPatternsAfter_eq pva hlen 1, List.drop_eq_nil_of_le (by omega)]
        unfold analyzeSingleCharColon
        split
        · rfl
        · rw [if_pos (by omega)]
          rfl
    · rw [if_pos (by omega)]
      rfl

theorem dangerousSuffix_tail (t : Char) (rest : List Char)
    (h : dangerousSuffix (t :: rest) = false) : dangerousSuffix rest = false := by
  rw [dangerousSuffix_cons] at h
  cases hr : dangerousSuffix rest
  · rfl
  · rw [hr] at h
    simp at h

theorem colonScanSpec_of_safe (l : List Char) (h : dangerousSuffix l = false) :
    colonScanSpec l = false := by
  induction l with
  | nil => rfl
  | cons c rest ih =>
    have hr := dangerousSuffix_tail c rest h
    by_cases hc : c = ':'
    · simp only [colonScanSpec, afterFirstColon, if_pos hc, hr]
    · have e : colonScanSpec (c :: rest) = colonScanSpec rest := by
        simp only [colonScanSpec, afterFirstColon, if_neg hc]
      rw [e]
      exact ih hr

theorem colonLoop_eq (pva : PathVulnerabilityAnalyzer)
    (hlen : pva.length = pva.tokens.length) (suffix : List Char) :
    ∀ k, pva.tokens.drop k = suffix →
      colonLoop pva (findColonPositionsFrom suffix k) = some (colonScanSpec suffix) := by
  induction suffix with
  | nil => intro k _; rfl
  | cons c rest ih =>
    intro k hk
    have hrest : pva.tokens.drop (k + 1) = rest := by
      rw [← List.tail_drop, hk]
      rfl
    by_cases hc : c = ':'
    · simp only [findColonPositionsFrom, if_pos hc, colonLoop,
        analyzeColonAtPosition_eq pva hlen k, hasDangerousPatternsAfter_eq pva hlen k, hrest,
        ih (k + 1) hrest]
      have e : colonScanSpec (c :: rest) = dangerousSuffix rest := by
        simp only [colonScanSpec, afterFirstColon, if_pos hc]
      rw [e]
      cases hd : dangerousSuffix rest
      · rw [ifReturn_false, colonScanSpec_of_safe rest hd]
      · rfl
    · have e : colonScanSpec (c :: rest) = colonScanSpec rest := by
        simp only [colonScanSpec, afterFirstColon, if_neg hc]
      simp only [findColonPositionsFrom, if_neg hc, e]
      exact ih (k + 1) hrest

theorem detectColonPatterns_eq (pva : PathVulnerabilityAnalyzer)
    (hlen : pva.length = pva.tokens.length) :
    detectColonPatterns pva = some (colonScanSpec pva.tokens) := by
  have h := colonLoop_eq pva hlen pva.tokens 0 rfl
  unfold detectColonPatterns findColonPositions
  simp only []
  split
  · next h0 =>
    have hnil : findColonPositionsFrom pva.tokens 0 = [] := List.length_eq_zero.1 h0
    rw [hnil] at h
    rw [← h]
    rfl
  · exact h

theorem slashOf_eq_iff (os : GOOS) (c y : Char) (h1 : y ≠ '/') (h2 : y ≠ '\\') :
    slashOf os c = y ↔ c = y := by
  unfold slashOf
  split
  · next hc =>
    subst hc
    constructor
    · intro h; exact absurd h.symm h1
    · intro h
      exfalso
      cases os
      · exact h1 h.symm
      · exact h2 h.symm
  · rfl

theorem dangerousSuffix_map_slashOf (os : GOOS) (l : List Char) :
    dangerousSuffix (l.map (slashOf os)) = dangerousSuffix l := by
  have hc : ∀ c : Char,
      (slashOf os c == '/' || slashOf os c == '\\' || slashOf os c == '%' ||
        slashOf os c == '\x00') = (c == '/' || c == '\\' || c == '%' || c == '\x00') := by
    intro c
    unfold slashOf
    split
    · next h =>
      subst h
      cases os <;> rfl
    · rfl
  have hany : ∀ l : List Char,
      (l.map (slashOf os)).any (fun c => c == '/' || c == '\\' || c == '%' || c == '\x00') =
        l.any (fun c => c == '/' || c == '\\' || c == '%' || c == '\x00') := by
    intro l
    induction l with
    | nil => rfl
    | cons a rest ih => simp only [List.map_cons, List.any_cons, ih, hc]
  simp only [dangerousSuffix, hany, hasDotDot_map_slashOf]

theorem colonScanSpec_map_slashOf (os : GOOS) (l : List Char) :
    colonScanSpec (l.map (slashOf os)) = colonScanSpec l := by
  induction l with
  | nil => rfl
  | cons c rest ih =>
    by_cases hc : c = ':'
    · have hc2 : slashOf os c = ':' := (slashOf_eq_iff os c ':' (by decide) (by decide)).2 hc
      simp only [List.map_cons, colonScanSpec, afterFirstColon, if_pos hc, if_pos hc2,
        dangerousSuffix_map_slashOf]
    · have hc2 : ¬ slashOf os c = ':' := fun h =>
        hc ((slashOf_eq_iff os c ':' (by decide) (by decide)).1 h)
      have e1 : colonScanSpec (List.map (slashOf os) (c :: rest)) =
          colonScanSpec (List.map (slashOf os) rest) := by
        simp only [List.map_cons, colonScanSpec, afterFirstColon, if_neg hc2]
      have e2 : colonScanSpec (c :: rest) = colonScanSpec rest := by
        simp only [colonScanSpec, afterFirstColon, if_neg hc]
      rw [e1, e2, ih]

theorem colonScanSpec_iff (l : List Char) :
    colonScanSpec l = true ↔
      ∃ pre post, l = pre ++ ':' :: post ∧ (∀ c ∈ pre, c ≠ ':') ∧
        dangerousSuffix post = true := by
  induction l with
  | nil => simp [colonScanSpec, afterFirstColon]
  | cons c rest ih =>
    by_cases hc : c = ':'
    · have e : colonScanSpec (c :: rest) = dangerousSuffix rest := by
        simp only [colonScanSpec, afterFirstColon, if_pos hc]
      rw [e]
      constructor
      · intro h
        exact ⟨[], rest, by simp [hc], by simp, h⟩
      · rintro ⟨pre, post, hl, hpre, hd⟩
        cases pre with
        | nil =>
          simp only [List.nil_append, List.cons.injEq] at hl
          rw [hl.2]
          exact hd
        | cons a pre2 =>
          simp only [List.cons_append, List.cons.injEq] at hl
          exact absurd (hl.1.symm.trans hc) (hpre a (by simp))
    · have e : colonScanSpec (c :: rest) = colonScanSpec rest := by
        simp only [colonScanSpec, afterFirstColon, if_neg hc]
      rw [e, ih]
      constructor
      · rintro ⟨pre, post, hl, hpre, hd⟩
        refine ⟨c :: pre, post, by simp [hl], ?_, hd⟩
        intro x hx
        simp only [List.mem_cons] at hx
        rcases hx with hx | hx
        · rw [hx]; exact hc
        · exact hpre x hx
      · rintro ⟨pre, post, hl, hpre, hd⟩
        cases pre with
        | nil =>
          simp only [List.nil_append, List.cons.injEq] at hl
          exact absurd hl.1 hc
        | cons a pre2 =>
          simp only [List.cons_append, List.cons.injEq] at hl
          exact ⟨pre2, post, hl.2, fun x hx => hpre x (by simp [hx]), hd⟩

theorem dangerousSuffix_iff (l : List Char) :
    dangerousSuffix l = true ↔
      (∃ c ∈ l, c = '/' ∨ c = '\\' ∨ c = '%' ∨ c = '\x00') ∨
        ∃ i, l[i]? = some '.' ∧ l[i + 1]? = some '.' := by
  simp only [dangerousSuffix, Bool.or_eq_true, List.any_eq_true, beq_iff_eq, hasDotDot_iff,
    or_assoc]

/-! ## The round trip of the generator and the scanner -/

theorem join_replicate_succ (s : String) (k : Nat) :
    String.join (List.replicate (k + 1) s) = s ++ String.join (List.replicate k s) := by
  rw [← repeatString_eq_join, ← repeatString_eq_join]
  rfl

theorem generated_name_vulnerable (os : GOOS) (d : Nat) (hd : 1 ≤ d) (p : String) :
    isVulnerablePath os (String.join (List.replicate d "../") ++ p) = some true := by
  obtain ⟨k, hk⟩ : ∃ k, d = k + 1 := ⟨d - 1, by omega⟩
  subst hk
  apply dots_in_data_vulnerable os _ []
    ('/' :: ((String.join (List.replicate k "../")).data ++ p.data))
  rw [join_replicate_succ, String.data_append, String.data_append]
  rfl

theorem scan_of_generated (os : GOOS) (payloads : List String) (d : Nat)
    (hne : payloads ≠ []) (hd : 1 ≤ d) :
    isVulnerableZip os (Except.ok (payloads.map (fun p =>
        (⟨String.join (List.replicate d "../") ++ p, "Malicious content for " ++ p⟩ : ZipEntry)))) =
      some ⟨true, payloads.map (fun p => String.join (List.replicate d "../") ++ p), none⟩ := by
  have hall : ∀ f ∈ payloads.map (fun p =>
      (⟨String.join (List.replicate d "../") ++ p, "Malicious content for " ++ p⟩ : ZipEntry)),
      isVulnerablePath os f.name = some true := by
    intro f hf
    obtain ⟨p, _, hp⟩ := List.mem_map.1 hf
    rw [← hp]
    exact generated_name_vulnerable os d hd p
  have hpos : 0 < payloads.length := List.length_pos.2 hne
  simp only [isVulnerableZip, scanLoop_all_vulnerable os _ hall, List.nil_append, List.map_map,
    List.length_map]
  simp [hpos]

/-! ## Claims on the colon scan, the normalizer and the round trip -/

/-- C21: on a string of ASCII code points the colon rule is one scan: it returns true
exactly when the string has a colon and, after its first colon, a slash, a backslash, a
percent sign, the NUL code point or two adjacent dots occur; and at every position
`analyzeColonAtPosition` agrees with `hasDangerousPatternsAfter`. -/
theorem colon_rule_is_one_scan (os : GOOS) (s : String) (hascii : ∀ c ∈ s.data, c.toNat < 128) :
    detectColonPatterns (NewPathAnalyzer os s) = some (colonScanSpec s.data) ∧
    (detectColonPatterns (NewPathAnalyzer os s) = some true ↔
      ∃ pre post, s.data = pre ++ ':' :: post ∧ (∀ c ∈ pre, c ≠ ':') ∧
        ((∃ c ∈ post, c = '/' ∨ c = '\\' ∨ c = '%' ∨ c = '\x00') ∨
          ∃ i, post[i]? = some '.' ∧ post[i + 1]? = some '.')) ∧
    (∀ p, analyzeColonAtPosition (NewPathAnalyzer os s) p =
      hasDangerousPatternsAfter (NewPathAnalyzer os s) p) := by
  have hlen := length_eq_of_ascii os s hascii
  have heq : detectColonPatterns (NewPathAnalyzer os s) = some (colonScanSpec s.data) := by
    rw [detectColonPatterns_eq _ hlen, NewPathAnalyzer_tokens, colonScanSpec_map_slashOf]
  refine ⟨heq, ?_, fun p => analyzeColonAtPosition_eq _ hlen p⟩
  rw [heq, Option.some.injEq, colonScanSpec_iff]
  simp only [dangerousSuffix_iff]

/-- Witness of C21 on the strings `device:path/x` and `1:2:3`. -/
theorem colon_rule_is_one_scan_witness :
    detectColonPatterns (NewPathAnalyzer GOOS.unix "device:path/x") = some true ∧
    detectColonPatterns (NewPathAnalyzer GOOS.unix "1:2:3") = some false :=
  ⟨(colon_rule_is_one_scan GOOS.unix "device:path/x" (by decide)).1,
    (colon_rule_is_one_scan GOOS.unix "1:2:3" (by decide)).1⟩

/-- C22 (fails on the code): on a build whose separator is the slash the normalized
path of `CON\x` keeps its backslash, its first component is `CON\x`, the device-name
rule does not trigger and the string is classified safe; on a Windows build the
backslash is rewritten and the rule triggers. -/
theorem backslash_kept_on_slash_separator_build :
    ToSlash GOOS.unix "CON\\x" = "CON\\x" ∧
    (Split (NewPathAnalyzer GOOS.unix "CON\\x").path '/')[0]? = some "CON\\x" ∧
    detectWindowsDeviceNames (NewPathAnalyzer GOOS.unix "CON\\x") = some false ∧
    isVulnerablePath GOOS.unix "CON\\x" = some false ∧
    ToSlash GOOS.windows "CON\\x" = "CON/x" ∧
    detectWindowsDeviceNames (NewPathAnalyzer GOOS.windows "CON\\x") = some true := by
  decide

/-- C23 (fails on the code): at the depth `2^63 - 1`, which is at least 1, the
generator panics in `strings.Repeat`, so it produces no archive to scan. -/
theorem no_archive_on_prefix_overflow :
    generateMaliciousZip allSucceed "out.zip" ["../../../etc/passwd"] 9223372036854775807 =
      none ∧
    1 ≤ (9223372036854775807 : Int) ∧
    ¬ ∃ archive,
      generateMaliciousZip allSucceed "out.zip" ["../../../etc/passwd"] 9223372036854775807 =
        some (Except.ok archive) :=
  ⟨rfl, by decide, fun h => h.elim (fun _ ha => nomatch ha)⟩

/-- C23 as amended: for a non-empty payload list and a depth `d` of at least 1, the scan
of any archive that the generator has produced returns no error, reports the flag true
and reports every generated entry name, `d` repetitions of `../` followed by the
payload, in payload order; and when `3 * d` fits an `int` the generator does produce
the archive whenever every call to the operating system and the archive writer
succeeds. -/
theorem generate_then_scan (os : GOOS) (io : ZipIO) (outputFile : String)
    (payloads : List String) (d : Nat) (hne : payloads ≠ []) (hd : 1 ≤ d) :
    (∀ archive, generateMaliciousZip io outputFile payloads (d : Int) = some (Except.ok archive) →
      isVulnerableZip os (Except.ok archive) =
        some ⟨true, payloads.map (fun p => String.join (List.replicate d "../") ++ p), none⟩) ∧
    (3 * (d : Int) ≤ maxInt → io.osCreate outputFile = none → (∀ n, io.zipCreate n = none) →
      (∀ n c, io.zipWrite n c = none) →
      ∃ archive, generateMaliciousZip io outputFile payloads (d : Int) = some (Except.ok archive) ∧
        isVulnerableZip os (Except.ok archive) =
          some ⟨true, payloads.map (fun p => String.join (List.replicate d "../") ++ p), none⟩) := by
  have key : ∀ archive,
      generateMaliciousZip io outputFile payloads (d : Int) = some (Except.ok archive) →
      isVulnerableZip os (Except.ok archive) =
        some ⟨true, payloads.map (fun p => String.join (List.replicate d "../") ++ p), none⟩ := by
    intro archive h
    rw [generate_ok io outputFile payloads d hne archive h]
    exact scan_of_generated os payloads d hne hd
  refine ⟨key, ?_⟩
  intro hb h1 h2 h3
  have hg : generateMaliciousZip io outputFile payloads (d : Int) =
      some (Except.ok ([] ++ payloads.map (fun p =>
        (⟨String.join (List.replicate d "../") ++ p, "Malicious content for " ++ p⟩ : ZipEntry)))) := by
    unfold generateMaliciousZip
    rw [h1]
    simp only [generate_payloads payloads hne]
    exact writePayloads_succeeds io d hb h2 h3 payloads []
  exact ⟨_, hg, key _ hg⟩

/-- Witness of the amended C23: the payload `../../../etc/passwd` at depth 3 gives one
reported entry, `../../../../../../etc/passwd`. -/
theorem generate_then_scan_witness :
    ["../../../etc/passwd"] ≠ [] ∧ 1 ≤ 3 ∧
    generateMaliciousZip allSucceed "out.zip" ["../../../etc/passwd"] 3 =
      some (Except.ok
        [⟨"../../../../../../etc/passwd", "Malicious content for ../../../etc/passwd"⟩]) ∧
    isVulnerableZip GOOS.unix
        (Except.ok
          [⟨"../../../../../../etc/passwd", "Malicious content for ../../../etc/passwd"⟩]) =
      some ⟨true, ["../../../../../../etc/passwd"], none⟩ :=
  ⟨by decide, by decide, rfl,
    (generate_then_scan GOOS.unix allSucceed "out.zip" ["../../../etc/passwd"] 3
      (by decide) (by decide)).1
      [⟨"../../../../../../etc/passwd", "Malicious content for ../../../etc/passwd"⟩] rfl⟩

end Zippys
